import Mathlib

/-!
Verification of the Hubbard fermion-matrix core (hubbardFermiMatrix.cpp,
hubbardFermiAction.cpp, math.hpp) against its specification.

The C++ code is embedded shallowly:

* space-indexed objects live over an abstract field `K` (instantiated with `ℂ`,
  the idealisation of `complex<double>`, for the concrete scenarios, and with
  `ℚ` for executable witnesses);
* a spacetime vector `φ` of length `Nx·Nt` is represented by its time slices
  `φ : ℕ → Fin Nx → K` (`φ t = spacevec(φ, t, Nx)`), since the source code only
  ever accesses `φ` through `spacevec`/`spacetimeCoord`;
* an `Nx·Nt × Nx·Nt` block matrix is represented by its `Nx×Nx` blocks
  `ℕ → ℕ → Matrix (Fin Nx) (Fin Nx) K` (`spacemat` accesses), with block
  indices ranging over `[0, Nt)`;
* the transcendental maps `x ↦ exp(±i·x)` used by `F`, `T⁺`, `T⁻` are
  parameters `eI eNegI : K → K` (instantiated with the genuine complex
  exponentials over `ℂ`); likewise `logdet` and `toFirstLogBranch` appear as
  parameters `logdetF : Matrix → K` and `tflbF : K → K` where only their
  plumbing matters, and concretely over `ℂ` where their values matter;
* LAPACK `getri` inversion of an exactly singular matrix fails; total
  functions use `minv A = (det A)⁻¹ • adjugate A` (the exact inverse whenever
  `det A ≠ 0`, and the junk value `0` otherwise) and the theorems carry the
  corresponding non-singularity hypotheses, while fallible entry points
  (`logdetM`, `solveM`, `reconstruct`) return `Option`.
-/

namespace Isle

/-- Species enum of the C++ code. -/
inductive Species where
  | PARTICLE
  | HOLE
deriving DecidableEq, Repr

/-- HFABasis enum of the C++ code. -/
inductive HFABasis where
  | PARTICLE_HOLE
  | SPIN
deriving DecidableEq, Repr

section Generic

variable {K : Type} [Field K] {Nx : ℕ}

/-- Square space matrix (an `Nx×Nx` block). -/
abbrev Mat (K : Type) (Nx : ℕ) := Matrix (Fin Nx) (Fin Nx) K

/-- Exact model of LAPACK `getrf`+`getri` on the non-singular domain:
`minv A` is the two-sided inverse of `A` when `det A ≠ 0` and the junk value
`0` otherwise (the C++ call would throw there). -/
def minv (A : Mat K Nx) : Mat K Nx := (A.det)⁻¹ • A.adjugate

/-- Space vector (length `Nx`). -/
abbrev Vec (K : Type) (Nx : ℕ) := Fin Nx → K

/-- Immutable parameters of a `HubbardFermiMatrix`: hopping matrix κ, chemical
potential μ and σκ (stored as `std::int8_t` in the source, hence `ℤ` here; it
is cast into `K` wherever the source lets it participate in `double`
arithmetic). -/
structure HFM (K : Type) (Nx : ℕ) where
  kappa : Mat K Nx
  mu : K
  sigmaKappa : ℤ

variable (eI eNegI : K → K)

/-- Index `t' - 1` with periodic wrap, as computed by `F`/`Tplus`:
`tp == 0 ? NT-1 : tp-1`. -/
def tm1 (nt tp : ℕ) : ℕ := if tp = 0 then nt - 1 else tp - 1

/-- HubbardFermiMatrix::K:
`K_PARTICLE = (1+μ)·1 - κ`, `K_HOLE = (1-μ)·1 - σκ·κ`. -/
def Kmat (H : HFM K Nx) (sp : Species) : Mat K Nx :=
  if sp = Species.PARTICLE then (1 + H.mu) • (1 : Mat K Nx) - H.kappa
  else (1 - H.mu) • (1 : Mat K Nx) - (H.sigmaKappa : K) • H.kappa

/-- HubbardFermiMatrix::F: diagonal matrix with entries `exp(±i·φ[x, t'-1])`;
the `-i` branch is taken iff `(inv ∧ PARTICLE) ∨ (HOLE ∧ ¬inv)`.  `eI`/`eNegI`
stand for `x ↦ exp(i·x)` / `x ↦ exp(-i·x)`. -/
def Fmat (H : HFM K Nx) (phi : ℕ → Vec K Nx) (nt tp : ℕ)
    (sp : Species) (inv : Bool) : Mat K Nx :=
  Matrix.diagonal (fun x =>
    if (inv = true ∧ sp = Species.PARTICLE) ∨ (sp = Species.HOLE ∧ inv = false)
    then eNegI (phi (tm1 nt tp) x) else eI (phi (tm1 nt tp) x))

/-- HubbardFermiMatrix::M, block `(t1, t2)`.  The source assigns
`m(0,0) = K`, then `m(0, NT-1) = F(0)` (which for `NT = 1` overwrites the
`K` written at `(0,0)`), and for `tp ≥ 1` it assigns `m(tp, tp-1) = -F(tp)`
and `m(tp, tp) = K`; every unassigned block is zero. -/
def Mblock (H : HFM K Nx) (phi : ℕ → Vec K Nx) (nt : ℕ) (sp : Species) :
    ℕ → ℕ → Mat K Nx := fun t1 t2 =>
  if t1 = 0 then
    (if t2 = nt - 1 then Fmat eI eNegI H phi nt 0 sp false
     else if t2 = 0 then Kmat H sp else 0)
  else if t2 = t1 then Kmat H sp
  else if t2 + 1 = t1 then -(Fmat eI eNegI H phi nt t1 sp false)
  else 0

/-- HubbardFermiMatrix::P:
`P = (2-μ²)·1 - (σκ(1+μ) + 1 - μ)·κ + σκ·κ²`. -/
def Pmat (H : HFM K Nx) : Mat K Nx :=
  (2 - H.mu * H.mu) • (1 : Mat K Nx)
    - ((H.sigmaKappa : K) * (1 + H.mu) + 1 - H.mu) • H.kappa
    + (H.sigmaKappa : K) • (H.kappa * H.kappa)

/-- HubbardFermiMatrix::Tplus: `T = σκ·κ - (1-μ)·1` with row `x` scaled by
`s·exp(i·φ[x, t'-1])`, `s = -1` iff `tp = 0`. -/
def Tplus (H : HFM K Nx) (phi : ℕ → Vec K Nx) (nt tp : ℕ) : Mat K Nx :=
  Matrix.of fun x y =>
    (if tp = 0 then (-1 : K) else 1) * eI (phi (tm1 nt tp) x) *
      ((H.sigmaKappa : K) • H.kappa - (1 - H.mu) • (1 : Mat K Nx)) x y

/-- HubbardFermiMatrix::Tminus: `T = κ - (1+μ)·1` with column `x` scaled by
`s·exp(-i·φ[x, tp])`, `s = -1` iff `tp = NT-1`. -/
def Tminus (H : HFM K Nx) (phi : ℕ → Vec K Nx) (nt tp : ℕ) : Mat K Nx :=
  Matrix.of fun y x =>
    (if tp = nt - 1 then (-1 : K) else 1) * eNegI (phi tp x) *
      (H.kappa - (1 + H.mu) • (1 : Mat K Nx)) y x

/-- HubbardFermiMatrix::Q, block `(t1, t2)`: `P` on the diagonal, `T⁺(t)`
added at `(t, (t+NT-1) % NT)`, `T⁻(t)` added at `(t, (t+1) % NT)` (the source
uses `+=`, so coinciding positions accumulate, e.g. for `NT ≤ 2`). -/
def Qblock (H : HFM K Nx) (phi : ℕ → Vec K Nx) (nt : ℕ) :
    ℕ → ℕ → Mat K Nx := fun t1 t2 =>
  (if t2 = t1 then Pmat H else 0)
    + (if t2 = (t1 + nt - 1) % nt then Tplus eI H phi nt t1 else 0)
    + (if t2 = (t1 + 1) % nt then Tminus eNegI H phi nt t1 else 0)

/-- HubbardFermiMatrix::QLU: the five block lists of the LU decomposition
(`dinv` stores the inverted pivot blocks). -/
structure QLU (K : Type) (Nx : ℕ) where
  dinv : List (Mat K Nx)
  u : List (Mat K Nx)
  l : List (Mat K Nx)
  v : List (Mat K Nx)
  h : List (Mat K Nx)

/-- HubbardFermiMatrix::QLU::isConsistent, translated clause by clause. -/
def QLU.isConsistent (lu : QLU K Nx) : Bool :=
  let nt := lu.dinv.length
  if nt = 0 then false
  else if ¬(lu.u.length = nt - 1 ∧ lu.l.length = nt - 1) then false
  else if 1 < nt ∧ ¬(lu.v.length = nt - 2 ∧ lu.h.length = nt - 2) then false
  else true

/-- nt1QLU: `dinv = [(P + T⁺(0) + T⁻(0))⁻¹]`, all other lists empty. -/
def nt1QLU (H : HFM K Nx) (phi : ℕ → Vec K Nx) : QLU K Nx :=
  ⟨[minv (Pmat H + Tplus eI H phi 1 0 + Tminus eNegI H phi 1 0)], [], [], [], []⟩

/-- nt2QLU: `d0 = P⁻¹`, `l0 = (T⁺(1)+T⁻(1))·d0`, `u0 = T⁺(0)+T⁻(0)`,
`d1 = (P - l0·u0)⁻¹`. -/
def nt2QLU (H : HFM K Nx) (phi : ℕ → Vec K Nx) : QLU K Nx :=
  let P := Pmat H
  let d0 := minv P
  let l0 := (Tplus eI H phi 2 1 + Tminus eNegI H phi 2 1) * d0
  let u0 := Tplus eI H phi 2 0 + Tminus eNegI H phi 2 0
  ⟨[d0, minv (P - l0 * u0)], [u0], [l0], [], []⟩

/-- generalQLU, state after the initial `emplace_back` block:
`dinv = [P⁻¹]`, `u = [T⁻(0)]`, `l = [T⁺(1)·P⁻¹]`, `v = [T⁺(0)]`,
`h = [T⁻(NT-1)·P⁻¹]`. -/
def qluInit (H : HFM K Nx) (phi : ℕ → Vec K Nx) (nt : ℕ) : QLU K Nx :=
  let d0 := minv (Pmat H)
  ⟨[d0], [Tminus eNegI H phi nt 0], [Tplus eI H phi nt 1 * d0],
   [Tplus eI H phi nt 0], [Tminus eNegI H phi nt (nt - 1) * d0]⟩

/-- generalQLU, body of the loop over `i ∈ [1, nt-3]`: appends
`dinv[i] = (P - l[i-1]·u[i-1])⁻¹`, `l[i] = T⁺(i+1)·dinv[i]`,
`h[i] = -h[i-1]·u[i-1]·dinv[i]`, `v[i] = -l[i-1]·v[i-1]`, `u[i] = T⁻(i)`
(all reads refer to the lists before the iteration, except `dinv[i]`). -/
def qluStep (H : HFM K Nx) (phi : ℕ → Vec K Nx) (nt : ℕ)
    (lu : QLU K Nx) (i : ℕ) : QLU K Nx :=
  let up := lu.u.getD (i - 1) 0
  let lp := lu.l.getD (i - 1) 0
  let d := minv (Pmat H - lp * up)
  ⟨lu.dinv ++ [d],
   lu.u ++ [Tminus eNegI H phi nt i],
   lu.l ++ [Tplus eI H phi nt (i + 1) * d],
   lu.v ++ [-(lp * lu.v.getD (i - 1) 0)],
   lu.h ++ [-(lu.h.getD (i - 1) 0 * up * d)]⟩

/-- generalQLU for `nt > 2` (the `default:` branch of `getQLU`): the init
block, the loop over `i ∈ [1, nt-3]`, and the final corrections
`dinv[nt-2] = (P - l[nt-3]·u[nt-3])⁻¹`,
`u[nt-2] = T⁻(nt-2) - l[nt-3]·v[nt-3]`,
`l[nt-2] = (T⁺(nt-1) - h[nt-3]·u[nt-3])·dinv[nt-2]`,
`dinv[nt-1] = (P - l[nt-2]·u[nt-2] - Σ_{i<nt-2} h[i]·v[i])⁻¹`. -/
def generalQLU (H : HFM K Nx) (phi : ℕ → Vec K Nx) (nt : ℕ) : QLU K Nx :=
  let lu := (List.range' 1 (nt - 3)).foldl (qluStep eI eNegI H phi nt)
    (qluInit eI eNegI H phi nt)
  let P := Pmat H
  let d2 := minv (P - lu.l.getD (nt - 3) 0 * lu.u.getD (nt - 3) 0)
  let u2 := Tminus eNegI H phi nt (nt - 2) - lu.l.getD (nt - 3) 0 * lu.v.getD (nt - 3) 0
  let l2 := (Tplus eI H phi nt (nt - 1) - lu.h.getD (nt - 3) 0 * lu.u.getD (nt - 3) 0) * d2
  let dN := minv (P - l2 * u2 -
    ((List.range (nt - 2)).map (fun i => lu.h.getD i 0 * lu.v.getD i 0)).sum)
  ⟨lu.dinv ++ [d2, dN], lu.u ++ [u2], lu.l ++ [l2], lu.v, lu.h⟩

/-- getQLU: dispatch on `NT = |φ|/Nx` exactly as the source `switch` does
(`1`, `2`, and `default` → `generalQLU`). -/
def getQLU (H : HFM K Nx) (phi : ℕ → Vec K Nx) (nt : ℕ) : QLU K Nx :=
  match nt with
  | 1 => nt1QLU eI eNegI H phi
  | 2 => nt2QLU eI eNegI H phi
  | _ => generalQLU eI eNegI H phi nt

/-- solveQ, forward substitution without the last row:
`y_0 = rhs_0`, `y_i = rhs_i - l[i-1]·y_{i-1}` (used for `i ≤ nt-2`). -/
def solveYSeq (lu : QLU K Nx) (rhs : ℕ → Vec K Nx) : ℕ → Vec K Nx
  | 0 => rhs 0
  | i + 1 => rhs (i + 1) - (lu.l.getD i 0).mulVec (solveYSeq lu rhs i)

/-- solveQ, full forward substitution: for `nt > 1` the last row additionally
subtracts `Σ_{j<nt-2} h[j]·y_j`. -/
def solveY (lu : QLU K Nx) (rhs : ℕ → Vec K Nx) (i : ℕ) : Vec K Nx :=
  let nt := lu.dinv.length
  if 1 < nt ∧ i = nt - 1 then
    rhs (nt - 1) - (lu.l.getD (nt - 2) 0).mulVec (solveYSeq lu rhs (nt - 2))
      - ((List.range (nt - 2)).map (fun j => (lu.h.getD j 0).mulVec (solveYSeq lu rhs j))).sum
  else solveYSeq lu rhs i

/-- solveQ, start of the backward substitution:
`x_{nt-1} = dinv[nt-1]·y_{nt-1}`. -/
def solveXLast (lu : QLU K Nx) (rhs : ℕ → Vec K Nx) : Vec K Nx :=
  (lu.dinv.getD (lu.dinv.length - 1) 0).mulVec (solveY lu rhs (lu.dinv.length - 1))

/-- solveQ, backward substitution indexed from the bottom
(`solveXRev k = x_{nt-1-k}`): `x_{nt-2} = dinv[nt-2]·(y_{nt-2} -
u[nt-2]·x_{nt-1})` and, for `i ≤ nt-3`,
`x_i = dinv[i]·(y_i - u[i]·x_{i+1} - v[i]·x_{nt-1})`. -/
def solveXRev (lu : QLU K Nx) (rhs : ℕ → Vec K Nx) : ℕ → Vec K Nx
  | 0 => solveXLast lu rhs
  | k + 1 =>
    let nt := lu.dinv.length
    if k = 0 then
      (lu.dinv.getD (nt - 2) 0).mulVec (solveY lu rhs (nt - 2)
        - (lu.u.getD (nt - 2) 0).mulVec (solveXRev lu rhs 0))
    else
      (lu.dinv.getD (nt - 2 - k) 0).mulVec (solveY lu rhs (nt - 2 - k)
        - (lu.u.getD (nt - 2 - k) 0).mulVec (solveXRev lu rhs k)
        - (lu.v.getD (nt - 2 - k) 0).mulVec (solveXLast lu rhs))

/-- solveQ(lu, rhs), time slice `i` of the solution (`x_i = solveXRev_{nt-1-i}`). -/
def solveQ (lu : QLU K Nx) (rhs : ℕ → Vec K Nx) (i : ℕ) : Vec K Nx :=
  solveXRev lu rhs (lu.dinv.length - 1 - i)

/-- QLU::reconstruct, block `(t1, t2)` (only meaningful for
`nt := lu.dinv.length ≥ 3`; see `reconstruct` for the `nt ≤ 2` guards).
Each branch transcribes one explicit `spacemat(recon, ...) = ...` assignment
of the source; unassigned blocks are zero. -/
def reconBlocks (lu : QLU K Nx) : ℕ → ℕ → Mat K Nx := fun t1 t2 =>
  let n := lu.dinv.length
  let d := fun i => lu.dinv.getD i 0
  let uu := fun i => lu.u.getD i 0
  let ll := fun i => lu.l.getD i 0
  let vv := fun i => lu.v.getD i 0
  let hh := fun i => lu.h.getD i 0
  if t1 = 0 then
    (if t2 = 0 then minv (d 0)
     else if t2 = 1 then uu 0
     else if t2 = n - 1 then vv 0
     else 0)
  else if t1 < n - 2 then
    (if t2 = t1 - 1 then ll (t1 - 1) * minv (d (t1 - 1))
     else if t2 = t1 then minv (d t1) + ll (t1 - 1) * uu (t1 - 1)
     else if t2 = t1 + 1 then uu t1
     else if t2 = n - 1 then ll (t1 - 1) * vv (t1 - 1) + vv t1
     else 0)
  else if t1 = n - 2 then
    (if t2 = n - 3 then ll (n - 3) * minv (d (n - 3))
     else if t2 = n - 2 then minv (d (n - 2)) + ll (n - 3) * uu (n - 3)
     else if t2 = n - 1 then ll (n - 3) * vv (n - 3) + uu (n - 2)
     else 0)
  else if t1 = n - 1 then
    (if t2 = 0 then hh 0 * minv (d 0)
     else if t2 = n - 2 then hh (n - 3) * uu (n - 3) + ll (n - 2) * minv (d (n - 2))
     else if t2 = n - 1 then
       minv (d (n - 1)) + ll (n - 2) * uu (n - 2)
         + ((List.range (n - 2)).map (fun i => hh i * vv i)).sum
     else if t2 < n - 2 then hh (t2 - 1) * uu (t2 - 1) + hh t2 * minv (d t2)
     else 0)
  else 0

/-- QLU::reconstruct.  The source throws `domain_error` for `nt < 2`; for
`nt = 2` its body indexes `l[nt-3]`, `u[nt-3]`, `h[nt-3]` (where `nt-3`
underflows to `SIZE_MAX`) and `v[0]`, all out of bounds for any consistent
`QLU` with `nt = 2` (`l`,`u` have 1 element, `v`,`h` are empty) — undefined
behaviour, modelled as a failure. -/
def reconstruct (lu : QLU K Nx) : Option (ℕ → ℕ → Mat K Nx) :=
  if lu.dinv.length < 2 then none
  else if lu.dinv.length = 2 then none
  else some (reconBlocks lu)

/-- Cached `K⁻¹` of HubbardFermiMatrix::Kinv, as a pure value. -/
def KinvM (H : HFM K Nx) (sp : Species) : Mat K Nx := minv (Kmat H sp)

/-- Accumulator loop of `logdetM`:
`aux = K⁻¹·F(0)`, then `aux = aux·K⁻¹·F(t)` for `t = 1, …, NT-1`. -/
def auxA (H : HFM K Nx) (phi : ℕ → Vec K Nx) (nt : ℕ) (sp : Species) : Mat K Nx :=
  (List.range' 1 (nt - 1)).foldl
    (fun a t => a * KinvM H sp * Fmat eI eNegI H phi nt t sp false)
    (KinvM H sp * Fmat eI eNegI H phi nt 0 sp false)

/-- logdetM (free function): refuses `μ ≠ 0` (`runtime_error` in the source),
then returns `toFirstLogBranch(-NT·logdetKinv + logdet(1 + aux))`.  The
failure of the LAPACK inversion of a singular `K` is also modelled as `none`. -/
def logdetM [DecidableEq K] (logdetF : Mat K Nx → K) (tflbF : K → K)
    (H : HFM K Nx) (phi : ℕ → Vec K Nx) (nt : ℕ) (sp : Species) : Option K :=
  if H.mu ≠ 0 then none
  else if (Kmat H sp).det = 0 then none
  else some (tflbF (-(nt : K) * logdetF (KinvM H sp)
    + logdetF (1 + auxA eI eNegI H phi nt sp)))

/-- Partial products of `A` stored by `solveM`:
`partialA[0] = K⁻¹·F(0)`, `partialA[t] = K⁻¹·F(t)·partialA[t-1]`. -/
def partialA (H : HFM K Nx) (phi : ℕ → Vec K Nx) (nt : ℕ) (sp : Species) :
    ℕ → Mat K Nx
  | 0 => KinvM H sp * Fmat eI eNegI H phi nt 0 sp false
  | t + 1 => KinvM H sp * Fmat eI eNegI H phi nt (t + 1) sp false *
      partialA H phi nt sp t

/-- Forward sweep of `solveM` (one right-hand side): `y_0 = K⁻¹·rhs_0`,
`y_t = K⁻¹·(rhs_t + F(t)·y_{t-1})`. -/
def solveMForward (H : HFM K Nx) (phi : ℕ → Vec K Nx) (nt : ℕ) (sp : Species)
    (r : ℕ → Vec K Nx) : ℕ → Vec K Nx
  | 0 => (KinvM H sp).mulVec (r 0)
  | t + 1 => (KinvM H sp).mulVec (r (t + 1)
      + (Fmat eI eNegI H phi nt (t + 1) sp false).mulVec (solveMForward H phi nt sp r t))

/-- Matrix `1 + A = 1 + K⁻¹·F(NT-1)·partialA.back()` inverted by `solveM`. -/
def invAmat (H : HFM K Nx) (phi : ℕ → Vec K Nx) (nt : ℕ) (sp : Species) : Mat K Nx :=
  1 + KinvM H sp * Fmat eI eNegI H phi nt (nt - 1) sp false *
    partialA eI eNegI H phi nt sp (nt - 2)

/-- solveM.  Note that, unlike `logdetM`, the source performs **no** `μ ≠ 0`
check; its only failure points are the LAPACK inversions of `K` and of
`1 + A` (modelled as `none` on exactly singular input). -/
def solveM [DecidableEq K] (H : HFM K Nx) (phi : ℕ → Vec K Nx) (nt : ℕ)
    (sp : Species) (rhs : List (ℕ → Vec K Nx)) : Option (List (ℕ → Vec K Nx)) :=
  if (Kmat H sp).det = 0 then none
  else if (invAmat eI eNegI H phi nt sp).det = 0 then none
  else some (rhs.map (fun r =>
    let y := solveMForward eI eNegI H phi nt sp r
    let xl := (minv (invAmat eI eNegI H phi nt sp)).mulVec (y (nt - 1))
    fun t => if t = nt - 1 then xl
      else y t - (partialA eI eNegI H phi nt sp t).mulVec xl))

/-!
Mutable-cache model of `HubbardFermiMatrix` (for the cache-coherence claim).
An empty / NaN-initialised cache is `none`; a populated cache is `some v`.
-/

/-- Full state of a `HubbardFermiMatrix` object: the parameters plus the four
lazy caches `_kinvp`, `_kinvh`, `_logdetKinvp`, `_logdetKinvh`. -/
structure HFMState (K : Type) (Nx : ℕ) where
  kappa : Mat K Nx
  mu : K
  sigmaKappa : ℤ
  kinvp : Option (Mat K Nx)
  kinvh : Option (Mat K Nx)
  ldkinvp : Option K
  ldkinvh : Option K

/-- Parameter triple of a state. -/
def HFMState.params (s : HFMState K Nx) : HFM K Nx := ⟨s.kappa, s.mu, s.sigmaKappa⟩

/-- HubbardFermiMatrix constructor: caches start cleared / NaN. -/
def mkHFM (kappa : Mat K Nx) (mu : K) (sigmaKappa : ℤ) : HFMState K Nx :=
  ⟨kappa, mu, sigmaKappa, none, none, none, none⟩

/-- HubbardFermiMatrix::updateKappa: clears all four caches, then stores κ. -/
def updateKappa (s : HFMState K Nx) (kappa' : Mat K Nx) : HFMState K Nx :=
  ⟨kappa', s.mu, s.sigmaKappa, none, none, none, none⟩

/-- HubbardFermiMatrix::updateMu: clears all four caches, then stores μ. -/
def updateMu (s : HFMState K Nx) (mu' : K) : HFMState K Nx :=
  ⟨s.kappa, mu', s.sigmaKappa, none, none, none, none⟩

/-- HubbardFermiMatrix::Kinv: returns the cached inverse if present, otherwise
computes `K(species)⁻¹`, stores it and returns it. -/
def KinvOp (s : HFMState K Nx) (sp : Species) : Mat K Nx × HFMState K Nx :=
  match sp with
  | Species.PARTICLE =>
    match s.kinvp with
    | some w => (w, s)
    | none =>
      let w := minv (Kmat s.params Species.PARTICLE)
      (w, { s with kinvp := some w })
  | Species.HOLE =>
    match s.kinvh with
    | some w => (w, s)
    | none =>
      let w := minv (Kmat s.params Species.HOLE)
      (w, { s with kinvh := some w })

/-- HubbardFermiMatrix::logdetKinv: returns the cached value if its real part
is not NaN, otherwise computes `logdet(Kinv(species))` (this call may itself
fill the `Kinv` cache), stores it and returns it. -/
def logdetKinvOp (logdetF : Mat K Nx → K) (s : HFMState K Nx) (sp : Species) :
    K × HFMState K Nx :=
  match sp with
  | Species.PARTICLE =>
    match s.ldkinvp with
    | some w => (w, s)
    | none =>
      let p := KinvOp s Species.PARTICLE
      let w := logdetF p.1
      (w, { p.2 with ldkinvp := some w })
  | Species.HOLE =>
    match s.ldkinvh with
    | some w => (w, s)
    | none =>
      let p := KinvOp s Species.HOLE
      let w := logdetF p.1
      (w, { p.2 with ldkinvh := some w })

/-- States reachable from a constructor call through the cache-touching
operations (`updateKappa`, `updateMu`, `Kinv`, `logdetKinv`; all remaining
member functions are `const` and do not touch the caches). -/
inductive Reaches (logdetF : Mat K Nx → K) : HFMState K Nx → Prop where
  | init : ∀ kappa mu sigmaKappa, Reaches logdetF (mkHFM kappa mu sigmaKappa)
  | updK : ∀ s kappa', Reaches logdetF s → Reaches logdetF (updateKappa s kappa')
  | updMu : ∀ s mu', Reaches logdetF s → Reaches logdetF (updateMu s mu')
  | kinv : ∀ s sp, Reaches logdetF s → Reaches logdetF (KinvOp s sp).2
  | ldkinv : ∀ s sp, Reaches logdetF s → Reaches logdetF (logdetKinvOp logdetF s sp).2

/-- Cache coherence: every populated cache holds exactly the value derived
from the current parameters. -/
def coherent (logdetF : Mat K Nx → K) (s : HFMState K Nx) : Prop :=
  (∀ w, s.kinvp = some w → w = minv (Kmat s.params Species.PARTICLE))
  ∧ (∀ w, s.kinvh = some w → w = minv (Kmat s.params Species.HOLE))
  ∧ (∀ w, s.ldkinvp = some w → w = logdetF (minv (Kmat s.params Species.PARTICLE)))
  ∧ (∀ w, s.ldkinvh = some w → w = logdetF (minv (Kmat s.params Species.HOLE)))

/-!
Hole-determinant shortcut (hubbardFermiAction.cpp).
-/

/-- Spec notion of bipartiteness: a 2-colouring of the sites with no
intra-class hoppings. -/
def BipartiteHopping (kappa : Mat K Nx) : Prop :=
  ∃ c : Fin Nx → Bool, ∀ i j, kappa i j ≠ 0 → c i ≠ c j

/-- Modelled from the spec: the helper `isBipartite(hopping)` called by
`_holeShortcutPossible` lives outside the provided sources; per the spec it
decides whether "there is a 2-colouring partition of the site set with no
intra-class hoppings". -/
instance decBipartiteHopping [DecidableEq K] (kappa : Mat K Nx) :
    Decidable (BipartiteHopping kappa) :=
  inferInstanceAs (Decidable (∃ c : Fin Nx → Bool, ∀ i j, kappa i j ≠ 0 → c i ≠ c j))

def isBipartite [DecidableEq K] (kappa : Mat K Nx) : Bool :=
  decide (BipartiteHopping kappa)

/-- `_holeShortcutPossible<BASIS>`: for `PARTICLE_HOLE` the early-return chain
(not bipartite → false, μ ≠ 0 → false, σκ ≠ +1 → false, else true); the
`SPIN` specialization always returns false. -/
def holeShortcutPossible [DecidableEq K] (basis : HFABasis) (hopping : Mat K Nx)
    (muTilde : K) (sigmaKappa : ℤ) : Bool :=
  match basis with
  | HFABasis.PARTICLE_HOLE =>
    if ¬ isBipartite hopping then false
    else if muTilde ≠ 0 then false
    else if sigmaKappa ≠ 1 then false
    else true
  | HFABasis.SPIN => false

/-- Modelled from the spec: the `HubbardFermiAction` constructor (declared in
a header outside the provided sources) records the flag
`_shortcutForHoles = _holeShortcutPossible<BASIS>(kappaTilde, muTilde,
sigmaKappa)`; the spec calls it a "constructor decision" over exactly these
three parameters, and the provided `eval`/`force` bodies read the stored flag. -/
def shortcutForHoles [DecidableEq K] (basis : HFABasis) (kappaTilde : Mat K Nx)
    (muTilde : K) (sigmaKappa : ℤ) : Bool :=
  holeShortcutPossible basis kappaTilde muTilde sigmaKappa

/-!
DIRECT_SINGLE force (forceDirectSinglePart, CPU branch) and the
(DIA, DIRECT_SINGLE, PARTICLE_HOLE) action.
-/

/-- Partial left products of `forceDirectSinglePart`
(`lefts`, stored in reverse order): `lefts[0] = F(nt-1)·k`,
`lefts[j] = F(nt-1-j)·k·lefts[j-1]`. -/
def leftsF (H : HFM K Nx) (phi : ℕ → Vec K Nx) (nt : ℕ) (k : Mat K Nx)
    (sp : Species) : ℕ → Mat K Nx
  | 0 => Fmat eI eNegI H phi nt (nt - 1) sp true * k
  | j + 1 => Fmat eI eNegI H phi nt (nt - 1 - (j + 1)) sp true * k *
      leftsF H phi nt k sp j

/-- Full `A⁻¹ = F(0)·k·lefts.back()` of `forceDirectSinglePart`. -/
def AinvF (H : HFM K Nx) (phi : ℕ → Vec K Nx) (nt : ℕ) (k : Mat K Nx)
    (sp : Species) : Mat K Nx :=
  Fmat eI eNegI H phi nt 0 sp true * k * leftsF eI eNegI H phi nt k sp (nt - 2)

/-- Right factor of `forceDirectSinglePart` after the update for time slice
`τ`: starting from `right = (1 + A⁻¹)⁻¹`, each iteration multiplies by
`F(τ)·k` on the right. -/
def rightAt (H : HFM K Nx) (phi : ℕ → Vec K Nx) (nt : ℕ) (k : Mat K Nx)
    (sp : Species) : ℕ → Mat K Nx
  | 0 => minv (1 + AinvF eI eNegI H phi nt k sp) * Fmat eI eNegI H phi nt 0 sp true * k
  | t + 1 => rightAt H phi nt k sp t * Fmat eI eNegI H phi nt (t + 1) sp true * k

/-- forceDirectSinglePart: requires `nt ≥ 2` (`invalid_argument` otherwise);
the LAPACK inversion of `1 + A⁻¹` is the other failure point.  Slice `nt-1`
is `diag(A⁻¹·(1+A⁻¹)⁻¹)`; slice `τ ≤ nt-2` is `diag(lefts[nt-2-τ]·right_τ)`. -/
def forceDirectSinglePart [DecidableEq K] (H : HFM K Nx) (phi : ℕ → Vec K Nx)
    (nt : ℕ) (k : Mat K Nx) (sp : Species) : Option (ℕ → Vec K Nx) :=
  if nt < 2 then none
  else if (1 + AinvF eI eNegI H phi nt k sp).det = 0 then none
  else some (fun t =>
    if t = nt - 1 then
      Matrix.diag (AinvF eI eNegI H phi nt k sp * minv (1 + AinvF eI eNegI H phi nt k sp))
    else
      Matrix.diag (leftsF eI eNegI H phi nt k sp (nt - 1 - t - 1) * rightAt eI eNegI H phi nt k sp t))

/-- eval of `HubbardFermiAction<DIA, DIRECT_SINGLE, PARTICLE_HOLE>`:
with the shortcut, `-toFirstLogBranch(ldp + conj(ldp))`; without it,
`-toFirstLogBranch(ldp + ldh)`.  `conjF` stands for complex conjugation. -/
def actionEvalDiaOnePH [DecidableEq K] (conjF : K → K) (logdetF : Mat K Nx → K)
    (tflbF : K → K) (H : HFM K Nx) (phi : ℕ → Vec K Nx) (nt : ℕ) : Option K :=
  if shortcutForHoles HFABasis.PARTICLE_HOLE H.kappa H.mu H.sigmaKappa then
    match logdetM eI eNegI logdetF tflbF H phi nt Species.PARTICLE with
    | some ldp => some (-(tflbF (ldp + conjF ldp)))
    | none => none
  else
    match logdetM eI eNegI logdetF tflbF H phi nt Species.PARTICLE,
          logdetM eI eNegI logdetF tflbF H phi nt Species.HOLE with
    | some ldp, some ldh => some (-(tflbF (ldp + ldh)))
    | _, _ => none

/-- force of `HubbardFermiAction<DIA, DIRECT_SINGLE, PARTICLE_HOLE>`:
with the shortcut, `-i·(fp - conj(fp))` where
`fp = forceDirectSinglePart(hfm, φ, kp, PARTICLE)`; without it,
`-i·(fp - fh)`.  `iUnit` stands for the imaginary unit. -/
def actionForceDiaOnePH [DecidableEq K] (conjF : K → K) (iUnit : K)
    (H : HFM K Nx) (phi : ℕ → Vec K Nx) (nt : ℕ) : Option (ℕ → Vec K Nx) :=
  if shortcutForHoles HFABasis.PARTICLE_HOLE H.kappa H.mu H.sigmaKappa then
    match forceDirectSinglePart eI eNegI H phi nt (Kmat H Species.PARTICLE) Species.PARTICLE with
    | some fp => some (fun t x => -iUnit * (fp t x - conjF (fp t x)))
    | none => none
  else
    match forceDirectSinglePart eI eNegI H phi nt (Kmat H Species.PARTICLE) Species.PARTICLE,
          forceDirectSinglePart eI eNegI H phi nt (Kmat H Species.HOLE) Species.HOLE with
    | some fp, some fh => some (fun t x => -iUnit * (fp t x - fh t x))
    | _, _ => none

end Generic

/-!
Concrete layer over `ℂ` (the idealisation of `complex<double>`).
-/

/-- C `trunc`: round towards zero. -/
noncomputable def rtrunc (x : ℝ) : ℤ := if 0 ≤ x then ⌊x⌋ else ⌈x⌉

/-- C `std::fmod(x, y) = x - trunc(x/y)·y` (the result keeps the sign of the
dividend `x`). -/
noncomputable def fmodC (x y : ℝ) : ℝ := x - y * (rtrunc (x / y) : ℝ)

/-- `toFirstLogBranch(x) = { real(x), fmod(imag(x) + π, 2π) - π }` (math.hpp). -/
noncomputable def toFirstLogBranch (z : ℂ) : ℂ :=
  ⟨z.re, fmodC (z.im + Real.pi) (2 * Real.pi) - Real.pi⟩

/-- `logdet` of math.hpp specialized to a `1×1` matrix, where the LU
decomposition is trivial (`ipiv[0] = 0`, so `detP = 1`, and `U = A`):
`toFirstLogBranch(log(A(0,0)))`. -/
noncomputable def logdetFin1 (A : Mat ℂ 1) : ℂ := toFirstLogBranch (Complex.log (A 0 0))

/-- The map `x ↦ exp(1.i * x)` used for the diagonal of `F` and rows of `T⁺`. -/
noncomputable def cexpI (z : ℂ) : ℂ := Complex.exp (Complex.I * z)

/-- The map `x ↦ exp(-1.i * x)` used for the diagonal of `F` and columns of `T⁻`. -/
noncomputable def cexpNegI (z : ℂ) : ℂ := Complex.exp (-(Complex.I * z))

/-!
A small concrete instance over `ℚ` (one site, hopping 0, μ = 0, σκ = +1,
φ ≡ 0, with the abstract phase maps frozen to the constant 1, the value the
true exponentials take at φ = 0).  It is used by the executable witnesses.
-/

/-- Constant-one stand-in for `x ↦ exp(±i·x)` evaluated at `φ ≡ 0`. -/
def oneF : ℚ → ℚ := fun _ => 1

/-- One-site Hubbard matrix parameters: κ = 0, μ = 0, σκ = +1. -/
def qOne : HFM ℚ 1 := ⟨0, 0, 1⟩

/-- The zero field configuration. -/
def phiZero : ℕ → Vec ℚ 1 := fun _ _ => 0

section QLUCharacterization

variable {K : Type} [Field K] {Nx : ℕ}

/-- Defining relations of the block LU produced by `generalQLU` (`nt ≥ 3`):
list lengths, the recursion for the inverted pivots `dinv`, and the recursions
for `u`, `l`, `v`, `h` exactly as the source loop writes them. -/
structure QLURel (eI eNegI : K → K) (H : HFM K Nx) (phi : ℕ → Vec K Nx)
    (nt : ℕ) (G : QLU K Nx) : Prop where
  len_dinv : G.dinv.length = nt
  len_u : G.u.length = nt - 1
  len_l : G.l.length = nt - 1
  len_v : G.v.length = nt - 2
  len_h : G.h.length = nt - 2
  d0 : G.dinv.getD 0 0 = minv (Pmat H)
  dmid : ∀ i, 1 ≤ i → i ≤ nt - 2 →
    G.dinv.getD i 0 = minv (Pmat H - G.l.getD (i-1) 0 * G.u.getD (i-1) 0)
  dlast : G.dinv.getD (nt-1) 0
    = minv (Pmat H - G.l.getD (nt-2) 0 * G.u.getD (nt-2) 0
        - ((List.range (nt-2)).map (fun i => G.h.getD i 0 * G.v.getD i 0)).sum)
  umid : ∀ i ≤ nt - 3, G.u.getD i 0 = Tminus eNegI H phi nt i
  ulast : G.u.getD (nt-2) 0
    = Tminus eNegI H phi nt (nt-2) - G.l.getD (nt-3) 0 * G.v.getD (nt-3) 0
  lmid : ∀ i ≤ nt - 3, G.l.getD i 0 = Tplus eI H phi nt (i+1) * G.dinv.getD i 0
  llast : G.l.getD (nt-2) 0
    = (Tplus eI H phi nt (nt-1) - G.h.getD (nt-3) 0 * G.u.getD (nt-3) 0) * G.dinv.getD (nt-2) 0
  v0 : G.v.getD 0 0 = Tplus eI H phi nt 0
  vmid : ∀ i, 1 ≤ i → i ≤ nt - 3 →
    G.v.getD i 0 = -(G.l.getD (i-1) 0 * G.v.getD (i-1) 0)
  h0 : G.h.getD 0 0 = Tminus eNegI H phi nt (nt-1) * G.dinv.getD 0 0
  hmid : ∀ i, 1 ≤ i → i ≤ nt - 3 →
    G.h.getD i 0 = -(G.h.getD (i-1) 0 * G.u.getD (i-1) 0 * G.dinv.getD i 0)

end QLUCharacterization

theorem minv_mul {K : Type} [Field K] {Nx : ℕ} {A : Mat K Nx} (h : A.det ≠ 0) :
    minv A * A = 1 := by
  rw [minv, Matrix.smul_mul, Matrix.adjugate_mul, smul_smul, inv_mul_cancel₀ h, one_smul]

theorem mul_minv {K : Type} [Field K] {Nx : ℕ} {A : Mat K Nx} (h : A.det ≠ 0) :
    A * minv A = 1 := by
  rw [minv, Matrix.mul_smul, Matrix.mul_adjugate, smul_smul, inv_mul_cancel₀ h, one_smul]

theorem det_minv {K : Type} [Field K] {Nx : ℕ} (A : Mat K Nx) :
    (minv A).det = (A.det)⁻¹ ^ Nx * A.det ^ (Nx - 1) := by
  rw [minv, Matrix.det_smul, Matrix.det_adjugate, Fintype.card_fin]

theorem minv_minv {K : Type} [Field K] {Nx : ℕ} {A : Mat K Nx} (h : A.det ≠ 0) :
    minv (minv A) = A := by
  have h2 : (minv A).det ≠ 0 := by
    rcases Nx with _ | m
    · rw [Matrix.det_fin_zero]; exact one_ne_zero
    · rw [det_minv]
      exact mul_ne_zero (pow_ne_zero _ (inv_ne_zero h)) (pow_ne_zero _ h)
  calc minv (minv A) = minv (minv A) * (minv A * A) := by rw [minv_mul h, mul_one]
    _ = (minv (minv A) * minv A) * A := by rw [mul_assoc]
    _ = A := by rw [minv_mul h2, one_mul]

theorem getD_append_self {α : Type} (l : List α) (a d : α) :
    (l ++ [a]).getD l.length d = a := by
  rw [List.getD_append_right _ _ _ _ le_rfl, Nat.sub_self]
  rfl

theorem getD_append2_left {α : Type} (l : List α) (a b d : α) :
    (l ++ [a, b]).getD l.length d = a := by
  rw [List.getD_append_right _ _ _ _ le_rfl, Nat.sub_self]
  rfl

theorem getD_append2_right {α : Type} (l : List α) (a b d : α) :
    (l ++ [a, b]).getD (l.length + 1) d = b := by
  rw [List.getD_append_right _ _ _ _ (Nat.le_succ _), Nat.succ_sub le_rfl, Nat.sub_self]
  rfl

/-- Modulo facts used to locate the `T⁺`/`T⁻` blocks of `Q`. -/
theorem wrap_left {nt t1 : ℕ} (h1 : 1 ≤ t1) (h2 : t1 < nt) :
    (t1 + nt - 1) % nt = t1 - 1 := by
  have e : t1 + nt - 1 = (t1 - 1) + nt := by omega
  rw [e, Nat.add_mod_right, Nat.mod_eq_of_lt (by omega)]

theorem wrap_left_zero {nt : ℕ} (h : 1 ≤ nt) : (0 + nt - 1) % nt = nt - 1 := by
  rw [Nat.zero_add, Nat.mod_eq_of_lt (by omega)]

theorem wrap_right {nt t1 : ℕ} (h : t1 + 1 < nt) : (t1 + 1) % nt = t1 + 1 :=
  Nat.mod_eq_of_lt h

theorem wrap_right_last {nt : ℕ} (h : 1 ≤ nt) : (nt - 1 + 1) % nt = 0 := by
  have e : nt - 1 + 1 = nt := by omega
  rw [e, Nat.mod_self]

section QLUProofs

variable {K : Type} [Field K] {Nx : ℕ} (eI eNegI : K → K) (H : HFM K Nx)
  (phi : ℕ → Vec K Nx) (nt : ℕ)

theorem qluStep_def (lu : QLU K Nx) (i : ℕ) :
    qluStep eI eNegI H phi nt lu i =
      ⟨lu.dinv ++ [minv (Pmat H - lu.l.getD (i-1) 0 * lu.u.getD (i-1) 0)],
       lu.u ++ [Tminus eNegI H phi nt i],
       lu.l ++ [Tplus eI H phi nt (i+1)
         * minv (Pmat H - lu.l.getD (i-1) 0 * lu.u.getD (i-1) 0)],
       lu.v ++ [-(lu.l.getD (i-1) 0 * lu.v.getD (i-1) 0)],
       lu.h ++ [-(lu.h.getD (i-1) 0 * lu.u.getD (i-1) 0
         * minv (Pmat H - lu.l.getD (i-1) 0 * lu.u.getD (i-1) 0))]⟩ := rfl

/-- Loop invariant of the main `generalQLU` loop: after folding over
`i ∈ [1, k]` all five lists have `k+1` entries and satisfy the defining
recursions of the decomposition. -/
theorem qluFold_spec (k : ℕ) :
    ∀ S, S = (List.range' 1 k).foldl (qluStep eI eNegI H phi nt)
        (qluInit eI eNegI H phi nt) →
      S.dinv.length = k + 1 ∧ S.u.length = k + 1 ∧ S.l.length = k + 1
      ∧ S.v.length = k + 1 ∧ S.h.length = k + 1
      ∧ S.dinv.getD 0 0 = minv (Pmat H)
      ∧ (∀ i, 1 ≤ i → i ≤ k → S.dinv.getD i 0
          = minv (Pmat H - S.l.getD (i-1) 0 * S.u.getD (i-1) 0))
      ∧ (∀ i ≤ k, S.u.getD i 0 = Tminus eNegI H phi nt i)
      ∧ (∀ i ≤ k, S.l.getD i 0 = Tplus eI H phi nt (i+1) * S.dinv.getD i 0)
      ∧ S.v.getD 0 0 = Tplus eI H phi nt 0
      ∧ (∀ i, 1 ≤ i → i ≤ k → S.v.getD i 0 = -(S.l.getD (i-1) 0 * S.v.getD (i-1) 0))
      ∧ S.h.getD 0 0 = Tminus eNegI H phi nt (nt-1) * S.dinv.getD 0 0
      ∧ (∀ i, 1 ≤ i → i ≤ k → S.h.getD i 0
          = -(S.h.getD (i-1) 0 * S.u.getD (i-1) 0 * S.dinv.getD i 0)) := by
  induction k with
  | zero =>
    intro S hS
    subst hS
    refine ⟨rfl, rfl, rfl, rfl, rfl, rfl, ?_, ?_, ?_, rfl, ?_, rfl, ?_⟩
    · intro i h1 h0
      omega
    · intro i hi
      interval_cases i
      rfl
    · intro i hi
      interval_cases i
      rfl
    · intro i h1 h0
      omega
    · intro i h1 h0
      omega
  | succ k ih =>
    intro S hS
    obtain ⟨hd, hu, hl, hv, hh, d0, dmid, umid, lmid, v0, vmid, h0, hmid⟩ :=
      ih _ rfl
    set T := (List.range' 1 k).foldl (qluStep eI eNegI H phi nt)
      (qluInit eI eNegI H phi nt) with hT
    have e1 : List.range' 1 (k+1) = List.range' 1 k ++ [k+1] := by
      have := @List.range'_concat 1 1 k
      simpa [Nat.add_comm] using this
    have e2 : S = qluStep eI eNegI H phi nt T (k+1) := by
      rw [hS, e1, List.foldl_append]
      rfl
    rw [e2, qluStep_def]
    have hk1 : k + 1 - 1 = k := rfl
    rw [hk1]
    set lp := T.l.getD k 0 with hlp
    set up := T.u.getD k 0 with hup
    set dnew := minv (Pmat H - lp * up) with hdnew
    -- getD on the extended lists
    have gd_old : ∀ i ≤ k, (T.dinv ++ [dnew]).getD i 0 = T.dinv.getD i 0 :=
      fun i hi => List.getD_append _ _ _ _ (by omega)
    have gd_new : (T.dinv ++ [dnew]).getD (k+1) 0 = dnew := by
      have := getD_append_self T.dinv dnew 0
      rwa [hd] at this
    have gu_old : ∀ i ≤ k, (T.u ++ [Tminus eNegI H phi nt (k+1)]).getD i 0 = T.u.getD i 0 :=
      fun i hi => List.getD_append _ _ _ _ (by omega)
    have gu_new : (T.u ++ [Tminus eNegI H phi nt (k+1)]).getD (k+1) 0
        = Tminus eNegI H phi nt (k+1) := by
      have := getD_append_self T.u (Tminus eNegI H phi nt (k+1)) 0
      rwa [hu] at this
    have gl_old : ∀ i ≤ k, (T.l ++ [Tplus eI H phi nt (k+1+1) * dnew]).getD i 0
        = T.l.getD i 0 :=
      fun i hi => List.getD_append _ _ _ _ (by omega)
    have gl_new : (T.l ++ [Tplus eI H phi nt (k+1+1) * dnew]).getD (k+1) 0
        = Tplus eI H phi nt (k+1+1) * dnew := by
      have := getD_append_self T.l (Tplus eI H phi nt (k+1+1) * dnew) 0
      rwa [hl] at this
    have gv_old : ∀ i ≤ k, (T.v ++ [-(lp * T.v.getD k 0)]).getD i 0 = T.v.getD i 0 :=
      fun i hi => List.getD_append _ _ _ _ (by omega)
    have gv_new : (T.v ++ [-(lp * T.v.getD k 0)]).getD (k+1) 0 = -(lp * T.v.getD k 0) := by
      have := getD_append_self T.v (-(lp * T.v.getD k 0)) 0
      rwa [hv] at this
    have gh_old : ∀ i ≤ k, (T.h ++ [-(T.h.getD k 0 * up * dnew)]).getD i 0
        = T.h.getD i 0 :=
      fun i hi => List.getD_append _ _ _ _ (by omega)
    have gh_new : (T.h ++ [-(T.h.getD k 0 * up * dnew)]).getD (k+1) 0
        = -(T.h.getD k 0 * up * dnew) := by
      have := getD_append_self T.h (-(T.h.getD k 0 * up * dnew)) 0
      rwa [hh] at this
    refine ⟨by simp [hd], by simp [hu], by simp [hl], by simp [hv], by simp [hh],
      by rw [gd_old 0 (Nat.zero_le _)]; exact d0, ?_, ?_, ?_,
      by rw [gv_old 0 (Nat.zero_le _)]; exact v0, ?_, ?_, ?_⟩
    · intro i h1 hik
      rcases Nat.lt_or_ge i (k+1) with hlt | hge
      · have hik' : i ≤ k := by omega
        have him1 : i - 1 ≤ k := by omega
        rw [gd_old i hik', gl_old _ him1, gu_old _ him1]
        exact dmid i h1 hik'
      · have hi : i = k + 1 := by omega
        subst hi
        simp only [Nat.add_sub_cancel, gd_new, gl_old k le_rfl, gu_old k le_rfl]
    · intro i hik
      rcases Nat.lt_or_ge i (k+1) with hlt | hge
      · have hik' : i ≤ k := by omega
        rw [gu_old i hik']
        exact umid i hik'
      · have hi : i = k + 1 := by omega
        subst hi
        exact gu_new
    · intro i hik
      rcases Nat.lt_or_ge i (k+1) with hlt | hge
      · have hik' : i ≤ k := by omega
        rw [gl_old i hik', gd_old i hik']
        exact lmid i hik'
      · have hi : i = k + 1 := by omega
        subst hi
        rw [gl_new, gd_new]
    · intro i h1 hik
      rcases Nat.lt_or_ge i (k+1) with hlt | hge
      · have hik' : i ≤ k := by omega
        have him1 : i - 1 ≤ k := by omega
        rw [gv_old i hik', gl_old _ him1, gv_old _ him1]
        exact vmid i h1 hik'
      · have hi : i = k + 1 := by omega
        subst hi
        simp only [Nat.add_sub_cancel, gv_new, gl_old k le_rfl, gv_old k le_rfl]
    · rw [gh_old 0 (Nat.zero_le _), gd_old 0 (Nat.zero_le _)]
      exact h0
    · intro i h1 hik
      rcases Nat.lt_or_ge i (k+1) with hlt | hge
      · have hik' : i ≤ k := by omega
        have him1 : i - 1 ≤ k := by omega
        rw [gh_old i hik', gh_old _ him1, gu_old _ him1, gd_old i hik']
        exact hmid i h1 hik'
      · have hi : i = k + 1 := by omega
        subst hi
        simp only [Nat.add_sub_cancel, gh_new, gh_old k le_rfl, gu_old k le_rfl, gd_new]

/-- The block LU produced by `generalQLU` satisfies all its defining
relations (for `nt ≥ 3`). -/
theorem generalQLU_rel (h3 : 3 ≤ nt) :
    QLURel eI eNegI H phi nt (generalQLU eI eNegI H phi nt) := by
  obtain ⟨hd, hu, hl, hv, hh, d0, dmid, umid, lmid, v0, vmid, h0, hmid⟩ :=
    qluFold_spec eI eNegI H phi nt (nt - 3) _ rfl
  set T := (List.range' 1 (nt - 3)).foldl (qluStep eI eNegI H phi nt)
    (qluInit eI eNegI H phi nt) with hT
  set d2 := minv (Pmat H - T.l.getD (nt-3) 0 * T.u.getD (nt-3) 0) with hd2
  set u2 := Tminus eNegI H phi nt (nt-2) - T.l.getD (nt-3) 0 * T.v.getD (nt-3) 0 with hu2
  set l2 := (Tplus eI H phi nt (nt-1) - T.h.getD (nt-3) 0 * T.u.getD (nt-3) 0) * d2 with hl2
  set dN := minv (Pmat H - l2 * u2
    - ((List.range (nt-2)).map (fun i => T.h.getD i 0 * T.v.getD i 0)).sum) with hdN
  have hG : generalQLU eI eNegI H phi nt
      = ⟨T.dinv ++ [d2, dN], T.u ++ [u2], T.l ++ [l2], T.v, T.h⟩ := rfl
  rw [hG]
  have hdlen : T.dinv.length = nt - 2 := by omega
  have hulen : T.u.length = nt - 2 := by omega
  have hllen : T.l.length = nt - 2 := by omega
  have gd_old : ∀ i ≤ nt - 3, (T.dinv ++ [d2, dN]).getD i 0 = T.dinv.getD i 0 :=
    fun i hi => List.getD_append _ _ _ _ (by omega)
  have gd_2 : (T.dinv ++ [d2, dN]).getD (nt - 2) 0 = d2 := by
    have := getD_append2_left T.dinv d2 dN 0
    rwa [hdlen] at this
  have gd_N : (T.dinv ++ [d2, dN]).getD (nt - 1) 0 = dN := by
    have := getD_append2_right T.dinv d2 dN 0
    rw [hdlen] at this
    have e : nt - 2 + 1 = nt - 1 := by omega
    rwa [e] at this
  have gu_old : ∀ i ≤ nt - 3, (T.u ++ [u2]).getD i 0 = T.u.getD i 0 :=
    fun i hi => List.getD_append _ _ _ _ (by omega)
  have gu_2 : (T.u ++ [u2]).getD (nt - 2) 0 = u2 := by
    have := getD_append_self T.u u2 0
    rwa [hulen] at this
  have gl_old : ∀ i ≤ nt - 3, (T.l ++ [l2]).getD i 0 = T.l.getD i 0 :=
    fun i hi => List.getD_append _ _ _ _ (by omega)
  have gl_2 : (T.l ++ [l2]).getD (nt - 2) 0 = l2 := by
    have := getD_append_self T.l l2 0
    rwa [hllen] at this
  refine ⟨by simp [hd]; omega, by simp [hu]; omega, by simp [hl]; omega,
    by show T.v.length = nt - 2; omega, by show T.h.length = nt - 2; omega,
    ?_, ?_, ?_, ?_, ?_, ?_, ?_, ?_, ?_, ?_, ?_⟩
  · rw [gd_old 0 (Nat.zero_le _)]
    exact d0
  · intro i h1 hi
    rcases Nat.lt_or_ge i (nt - 2) with hlt | hge
    · have hi3 : i ≤ nt - 3 := by omega
      have hi3' : i - 1 ≤ nt - 3 := by omega
      rw [gd_old i hi3, gl_old _ hi3', gu_old _ hi3']
      exact dmid i h1 hi3
    · have hieq : i = nt - 2 := by omega
      subst hieq
      have e : nt - 2 - 1 = nt - 3 := by omega
      rw [gd_2, e, gl_old _ le_rfl, gu_old _ le_rfl]
  · rw [gd_N, gl_2, gu_2]
  · intro i hi
    rw [gu_old i hi]
    exact umid i hi
  · have e : nt - 2 - 1 = nt - 3 := by omega
    rw [gu_2, gl_old _ le_rfl]
  · intro i hi
    rw [gl_old i hi, gd_old i hi]
    exact lmid i hi
  · rw [gl_2, gu_old _ le_rfl, gd_2]
  · exact v0
  · intro i h1 hi
    have hi' : i - 1 ≤ nt - 3 := by omega
    rw [gl_old _ hi']
    exact vmid i h1 hi
  · rw [gd_old 0 (Nat.zero_le _)]
    exact h0
  · intro i h1 hi
    have hi' : i - 1 ≤ nt - 3 := by omega
    rw [gu_old _ hi', gd_old i hi]
    exact hmid i h1 hi

/-- C10: for every `Nt ≥ 1`, the QLU returned by `getQLU` is consistent:
`|dinv| = Nt`, `|u| = |l| = Nt-1`, for `Nt > 1` also `|v| = |h| = Nt-2`, and
all of `u`, `l`, `v`, `h` are empty when `Nt = 1`. -/
theorem C10_theorem (h1 : 1 ≤ nt) :
    (getQLU eI eNegI H phi nt).isConsistent = true
    ∧ (getQLU eI eNegI H phi nt).dinv.length = nt
    ∧ (getQLU eI eNegI H phi nt).u.length = nt - 1
    ∧ (getQLU eI eNegI H phi nt).l.length = nt - 1
    ∧ (1 < nt → (getQLU eI eNegI H phi nt).v.length = nt - 2
        ∧ (getQLU eI eNegI H phi nt).h.length = nt - 2)
    ∧ (nt = 1 → (getQLU eI eNegI H phi nt).u = [] ∧ (getQLU eI eNegI H phi nt).l = []
        ∧ (getQLU eI eNegI H phi nt).v = [] ∧ (getQLU eI eNegI H phi nt).h = []) := by
  match nt, h1 with
  | 1, _ =>
    exact ⟨rfl, rfl, rfl, rfl, by omega, fun _ => ⟨rfl, rfl, rfl, rfl⟩⟩
  | 2, _ =>
    exact ⟨rfl, rfl, rfl, rfl, fun _ => ⟨rfl, rfl⟩, by omega⟩
  | (m + 3), _ =>
    have R := generalQLU_rel eI eNegI H phi (m + 3) (by omega)
    have hG : getQLU eI eNegI H phi (m + 3) = generalQLU eI eNegI H phi (m + 3) := rfl
    rw [hG]
    refine ⟨?_, R.len_dinv, R.len_u, R.len_l,
      fun _ => ⟨R.len_v, R.len_h⟩, by omega⟩
    rw [QLU.isConsistent]
    simp only [R.len_dinv, R.len_u, R.len_l, R.len_v, R.len_h]
    have e0 : ¬(m + 3 = 0) := by omega
    rw [if_neg e0, if_neg (by simp), if_neg (by simp)]

theorem det_ne_zero_of_minv {A : Mat K Nx} (h : (minv A).det ≠ 0) : A.det ≠ 0 := by
  intro h0
  rcases Nx with _ | m
  · rw [Matrix.det_fin_zero] at h0
    exact one_ne_zero h0
  · apply h
    have hA0 : minv A = 0 := by
      rw [minv, h0, inv_zero, zero_smul]
    rw [hA0, Matrix.det_zero ⟨0⟩]

/-- Evaluation of the blocks of `Q` at the positions `reconstruct` writes. -/
theorem Qblock_diag (h3 : 3 ≤ nt) (t : ℕ) (ht : t < nt) :
    Qblock eI eNegI H phi nt t t = Pmat H := by
  have c1 : ¬(t = (t + nt - 1) % nt) := by
    by_cases h0 : t = 0
    · subst h0
      rw [wrap_left_zero (by omega : 1 ≤ nt)]
      omega
    · rw [wrap_left (by omega) ht]
      omega
  have c2 : ¬(t = (t + 1) % nt) := by
    by_cases hl : t + 1 < nt
    · rw [wrap_right hl]
      omega
    · have ht' : t = nt - 1 := by omega
      subst ht'
      rw [wrap_right_last (by omega : 1 ≤ nt)]
      omega
  unfold Qblock
  rw [if_pos rfl, if_neg c1, if_neg c2, add_zero, add_zero]

theorem Qblock_sub (h3 : 3 ≤ nt) (t : ℕ) (h1 : 1 ≤ t) (ht : t < nt) :
    Qblock eI eNegI H phi nt t (t - 1) = Tplus eI H phi nt t := by
  have c0 : ¬(t - 1 = t) := by omega
  have c1 : t - 1 = (t + nt - 1) % nt := (wrap_left h1 ht).symm
  have c2 : ¬(t - 1 = (t + 1) % nt) := by
    by_cases hl : t + 1 < nt
    · rw [wrap_right hl]
      omega
    · have ht' : t = nt - 1 := by omega
      subst ht'
      rw [wrap_right_last (by omega : 1 ≤ nt)]
      omega
  unfold Qblock
  rw [if_neg c0, if_pos c1, if_neg c2, zero_add, add_zero]

theorem Qblock_super (h3 : 3 ≤ nt) (t : ℕ) (ht : t + 1 < nt) :
    Qblock eI eNegI H phi nt t (t + 1) = Tminus eNegI H phi nt t := by
  have c0 : ¬(t + 1 = t) := by omega
  have c1 : ¬(t + 1 = (t + nt - 1) % nt) := by
    by_cases h0 : t = 0
    · subst h0
      rw [wrap_left_zero (by omega : 1 ≤ nt)]
      omega
    · rw [wrap_left (by omega) (by omega)]
      omega
  have c2 : t + 1 = (t + 1) % nt := (wrap_right ht).symm
  unfold Qblock
  rw [if_neg c0, if_neg c1, if_pos c2, zero_add, zero_add]

theorem Qblock_corner_top (h3 : 3 ≤ nt) :
    Qblock eI eNegI H phi nt 0 (nt - 1) = Tplus eI H phi nt 0 := by
  have c0 : ¬(nt - 1 = 0) := by omega
  have c1 : nt - 1 = (0 + nt - 1) % nt := (wrap_left_zero (by omega : 1 ≤ nt)).symm
  have c2 : ¬(nt - 1 = (0 + 1) % nt) := by
    rw [wrap_right (by omega : 0 + 1 < nt)]
    omega
  unfold Qblock
  rw [if_neg c0, if_pos c1, if_neg c2, zero_add, add_zero]

theorem Qblock_corner_bot (h3 : 3 ≤ nt) :
    Qblock eI eNegI H phi nt (nt - 1) 0 = Tminus eNegI H phi nt (nt - 1) := by
  have c0 : ¬((0:ℕ) = nt - 1) := by omega
  have c1 : ¬((0:ℕ) = (nt - 1 + nt - 1) % nt) := by
    have e : nt - 1 + nt - 1 = (nt - 2) + nt := by omega
    rw [e, Nat.add_mod_right, Nat.mod_eq_of_lt (by omega : nt - 2 < nt)]
    omega
  have c2 : (0:ℕ) = (nt - 1 + 1) % nt := (wrap_right_last (by omega : 1 ≤ nt)).symm
  unfold Qblock
  rw [if_neg c0, if_neg c1, if_pos c2, zero_add, zero_add]

theorem Qblock_zero (t1 t2 : ℕ) (hne1 : ¬(t2 = t1))
    (hne2 : ¬(t2 = (t1 + nt - 1) % nt)) (hne3 : ¬(t2 = (t1 + 1) % nt)) :
    Qblock eI eNegI H phi nt t1 t2 = 0 := by
  unfold Qblock
  rw [if_neg hne1, if_neg hne2, if_neg hne3, add_zero, add_zero]

/-- Main reconstruction identity for `nt ≥ 3`: as long as every stored pivot
block is invertible (i.e. every LAPACK inversion performed by `generalQLU`
succeeded), `reconstruct` rebuilds exactly the blocks of `Q`. -/
theorem reconBlocks_eq_Qblock (h3 : 3 ≤ nt)
    (hpiv : ∀ i < nt, ((generalQLU eI eNegI H phi nt).dinv.getD i 0).det ≠ 0) :
    ∀ t1 < nt, ∀ t2 < nt,
      reconBlocks (generalQLU eI eNegI H phi nt) t1 t2
        = Qblock eI eNegI H phi nt t1 t2 := by
  have R := generalQLU_rel eI eNegI H phi nt h3
  set G := generalQLU eI eNegI H phi nt with hG
  have hlen : G.dinv.length = nt := R.len_dinv
  have inv2 : ∀ i, i < nt → G.dinv.getD i 0 * minv (G.dinv.getD i 0) = 1 :=
    fun i hi => mul_minv (hpiv i hi)
  have mD0 : minv (G.dinv.getD 0 0) = Pmat H := by
    rw [R.d0]
    exact minv_minv (det_ne_zero_of_minv (R.d0 ▸ hpiv 0 (by omega)))
  have mDi : ∀ i, 1 ≤ i → i ≤ nt - 2 →
      minv (G.dinv.getD i 0) = Pmat H - G.l.getD (i-1) 0 * G.u.getD (i-1) 0 := by
    intro i hi1 hi2
    rw [R.dmid i hi1 hi2]
    exact minv_minv (det_ne_zero_of_minv ((R.dmid i hi1 hi2) ▸ hpiv i (by omega)))
  have mDN : minv (G.dinv.getD (nt-1) 0)
      = Pmat H - G.l.getD (nt-2) 0 * G.u.getD (nt-2) 0
        - ((List.range (nt-2)).map (fun i => G.h.getD i 0 * G.v.getD i 0)).sum := by
    rw [R.dlast]
    exact minv_minv (det_ne_zero_of_minv (R.dlast ▸ hpiv (nt-1) (by omega)))
  intro t1 ht1 t2 ht2
  by_cases h10 : t1 = 0
  · subst h10
    by_cases h20 : t2 = 0
    · subst h20
      have hrec : reconBlocks G 0 0 = minv (G.dinv.getD 0 0) := by
        simp only [reconBlocks, hlen, if_true]
      rw [hrec, Qblock_diag eI eNegI H phi nt h3 0 (by omega), mD0]
    · by_cases h21 : t2 = 1
      · subst h21
        have hrec : reconBlocks G 0 1 = G.u.getD 0 0 := by
          simp only [reconBlocks, hlen, if_true]
          rw [if_neg (by omega : ¬(1:ℕ) = 0)]
        have hq := Qblock_super eI eNegI H phi nt h3 0 (by omega)
        norm_num at hq
        rw [hrec, hq, R.umid 0 (by omega)]
      · by_cases h2l : t2 = nt - 1
        · subst h2l
          have hrec : reconBlocks G 0 (nt-1) = G.v.getD 0 0 := by
            simp only [reconBlocks, hlen, if_true]
            rw [if_neg (by omega : ¬(nt - 1 = 0)), if_neg (by omega : ¬(nt - 1 = 1))]
          rw [hrec, R.v0, Qblock_corner_top eI eNegI H phi nt h3]
        · have hrec : reconBlocks G 0 t2 = 0 := by
            simp only [reconBlocks, hlen, if_true]
            rw [if_neg h20, if_neg h21, if_neg h2l]
          rw [hrec, Qblock_zero eI eNegI H phi nt 0 t2 h20
            (by rw [wrap_left_zero (by omega : 1 ≤ nt)]; omega)
            (by rw [wrap_right (by omega : 0 + 1 < nt)]; omega)]
  · by_cases h1mid : t1 < nt - 2
    · have h11 : 1 ≤ t1 := by omega
      by_cases h2a : t2 = t1 - 1
      · subst h2a
        have hrec : reconBlocks G t1 (t1-1)
            = G.l.getD (t1-1) 0 * minv (G.dinv.getD (t1-1) 0) := by
          simp only [reconBlocks, hlen, if_true]
          rw [if_neg h10, if_pos h1mid]
        have e1 : t1 - 1 + 1 = t1 := by omega
        rw [hrec, R.lmid (t1-1) (by omega), e1, mul_assoc,
          inv2 (t1-1) (by omega), mul_one,
          Qblock_sub eI eNegI H phi nt h3 t1 h11 ht1]
      · by_cases h2b : t2 = t1
        · subst h2b
          have hrec : reconBlocks G t2 t2
              = minv (G.dinv.getD t2 0) + G.l.getD (t2-1) 0 * G.u.getD (t2-1) 0 := by
            simp only [reconBlocks, hlen, if_true]
            rw [if_neg h10, if_pos h1mid, if_neg (by omega : ¬(t2 = t2 - 1))]
          rw [hrec, mDi t2 h11 (by omega), sub_add_cancel,
            Qblock_diag eI eNegI H phi nt h3 t2 ht2]
        · by_cases h2c : t2 = t1 + 1
          · subst h2c
            have hrec : reconBlocks G t1 (t1+1) = G.u.getD t1 0 := by
              simp only [reconBlocks, hlen, if_true]
              rw [if_neg h10, if_pos h1mid,
                if_neg (by omega : ¬(t1 + 1 = t1 - 1)),
                if_neg (by omega : ¬(t1 + 1 = t1))]
            rw [hrec, R.umid t1 (by omega),
              Qblock_super eI eNegI H phi nt h3 t1 (by omega)]
          · by_cases h2d : t2 = nt - 1
            · subst h2d
              have hrec : reconBlocks G t1 (nt-1)
                  = G.l.getD (t1-1) 0 * G.v.getD (t1-1) 0 + G.v.getD t1 0 := by
                simp only [reconBlocks, hlen, if_true]
                rw [if_neg h10, if_pos h1mid,
                  if_neg (by omega : ¬(nt - 1 = t1 - 1)),
                  if_neg (by omega : ¬(nt - 1 = t1)),
                  if_neg (by omega : ¬(nt - 1 = t1 + 1))]
              rw [hrec, R.vmid t1 h11 (by omega), add_neg_cancel,
                Qblock_zero eI eNegI H phi nt t1 (nt-1)
                  (by omega : ¬(nt - 1 = t1))
                  (by rw [wrap_left h11 ht1]; omega)
                  (by rw [wrap_right (by omega : t1 + 1 < nt)]; omega)]
            · have hrec : reconBlocks G t1 t2 = 0 := by
                simp only [reconBlocks, hlen, if_true]
                rw [if_neg h10, if_pos h1mid, if_neg h2a, if_neg h2b,
                  if_neg h2c, if_neg h2d]
              rw [hrec, Qblock_zero eI eNegI H phi nt t1 t2 h2b
                (by rw [wrap_left h11 ht1]; omega)
                (by rw [wrap_right (by omega : t1 + 1 < nt)]; omega)]
    · by_cases h1n2 : t1 = nt - 2
      · subst h1n2
        have h11 : 1 ≤ nt - 2 := by omega
        by_cases h2a : t2 = nt - 3
        · subst h2a
          have hrec : reconBlocks G (nt-2) (nt-3)
              = G.l.getD (nt-3) 0 * minv (G.dinv.getD (nt-3) 0) := by
            simp only [reconBlocks, hlen, if_true]
            rw [if_neg h10, if_neg h1mid]
          have hq := Qblock_sub eI eNegI H phi nt h3 (nt-2) h11 (by omega)
          have e0 : nt - 2 - 1 = nt - 3 := by omega
          rw [e0] at hq
          have e1 : nt - 3 + 1 = nt - 2 := by omega
          rw [hrec, R.lmid (nt-3) le_rfl, e1, mul_assoc,
            inv2 (nt-3) (by omega), mul_one, hq]
        · by_cases h2b : t2 = nt - 2
          · subst h2b
            have hrec : reconBlocks G (nt-2) (nt-2)
                = minv (G.dinv.getD (nt-2) 0)
                  + G.l.getD (nt-3) 0 * G.u.getD (nt-3) 0 := by
              simp only [reconBlocks, hlen, if_true]
              rw [if_neg h10, if_neg h1mid, if_neg (by omega : ¬(nt - 2 = nt - 3))]
            have e1 : nt - 2 - 1 = nt - 3 := by omega
            have hd2 := mDi (nt-2) h11 le_rfl
            rw [e1] at hd2
            rw [hrec, hd2, sub_add_cancel,
              Qblock_diag eI eNegI H phi nt h3 (nt-2) (by omega)]
          · by_cases h2c : t2 = nt - 1
            · subst h2c
              have hrec : reconBlocks G (nt-2) (nt-1)
                  = G.l.getD (nt-3) 0 * G.v.getD (nt-3) 0 + G.u.getD (nt-2) 0 := by
                simp only [reconBlocks, hlen, if_true]
                rw [if_neg h10, if_neg h1mid,
                  if_neg (by omega : ¬(nt - 1 = nt - 3)),
                  if_neg (by omega : ¬(nt - 1 = nt - 2))]
              have hq := Qblock_super eI eNegI H phi nt h3 (nt-2) (by omega)
              have e1 : nt - 2 + 1 = nt - 1 := by omega
              rw [e1] at hq
              rw [hrec, R.ulast, add_comm, sub_add_cancel, hq]
            · have hrec : reconBlocks G (nt-2) t2 = 0 := by
                simp only [reconBlocks, hlen, if_true]
                rw [if_neg h10, if_neg h1mid, if_neg h2a, if_neg h2b, if_neg h2c]
              rw [hrec, Qblock_zero eI eNegI H phi nt (nt-2) t2 h2b
                (by rw [wrap_left h11 (by omega)]; omega)
                (by rw [wrap_right (by omega : nt - 2 + 1 < nt)]; omega)]
      · have h1n1 : t1 = nt - 1 := by omega
        subst h1n1
        have hwl : (nt - 1 + nt - 1) % nt = nt - 2 := by
          have e : nt - 1 + nt - 1 = (nt - 2) + nt := by omega
          rw [e, Nat.add_mod_right, Nat.mod_eq_of_lt (by omega : nt - 2 < nt)]
        by_cases h2a : t2 = 0
        · subst h2a
          have hrec : reconBlocks G (nt-1) 0
              = G.h.getD 0 0 * minv (G.dinv.getD 0 0) := by
            simp only [reconBlocks, hlen, if_true]
            rw [if_neg h10, if_neg h1mid, if_neg h1n2]
          rw [hrec, R.h0, mul_assoc, inv2 0 (by omega), mul_one,
            Qblock_corner_bot eI eNegI H phi nt h3]
        · by_cases h2b : t2 = nt - 2
          · subst h2b
            have hrec : reconBlocks G (nt-1) (nt-2)
                = G.h.getD (nt-3) 0 * G.u.getD (nt-3) 0
                  + G.l.getD (nt-2) 0 * minv (G.dinv.getD (nt-2) 0) := by
              simp only [reconBlocks, hlen, if_true]
              rw [if_neg h10, if_neg h1mid, if_neg h1n2,
                if_neg (by omega : ¬(nt - 2 = 0))]
            have hq := Qblock_sub eI eNegI H phi nt h3 (nt-1) (by omega) (by omega)
            have e1 : nt - 1 - 1 = nt - 2 := by omega
            rw [e1] at hq
            rw [hrec, R.llast, mul_assoc, inv2 (nt-2) (by omega), mul_one,
              add_comm, sub_add_cancel, hq]
          · by_cases h2c : t2 = nt - 1
            · subst h2c
              have hrec : reconBlocks G (nt-1) (nt-1)
                  = minv (G.dinv.getD (nt-1) 0)
                    + G.l.getD (nt-2) 0 * G.u.getD (nt-2) 0
                    + ((List.range (nt-2)).map
                        (fun i => G.h.getD i 0 * G.v.getD i 0)).sum := by
                simp only [reconBlocks, hlen, if_true]
                rw [if_neg h10, if_neg h1mid, if_neg h1n2,
                  if_neg (by omega : ¬(nt - 1 = 0)),
                  if_neg (by omega : ¬(nt - 1 = nt - 2))]
              rw [hrec, mDN, Qblock_diag eI eNegI H phi nt h3 (nt-1) (by omega)]
              abel
            · have c1 : t2 < nt - 2 := by omega
              have hrec : reconBlocks G (nt-1) t2
                  = G.h.getD (t2-1) 0 * G.u.getD (t2-1) 0
                    + G.h.getD t2 0 * minv (G.dinv.getD t2 0) := by
                simp only [reconBlocks, hlen, if_true]
                rw [if_neg h10, if_neg h1mid, if_neg h1n2, if_neg h2a,
                  if_neg h2b, if_neg h2c, if_pos c1]
              rw [hrec, R.hmid t2 (by omega) (by omega), neg_mul, mul_assoc,
                mul_assoc, inv2 t2 (by omega), mul_one, add_neg_cancel,
                Qblock_zero eI eNegI H phi nt (nt-1) t2 h2c
                  (by rw [hwl]; omega)
                  (by rw [wrap_right_last (by omega : 1 ≤ nt)]; omega)]

/-- C2: the spec promises `reconstruct(getQLU(hfm, φ)) = Q(hfm, φ)` for all
`Nt ≥ 2`, but at `Nt = 2` the body of `reconstruct` reads `l[nt-3]`,
`u[nt-3]`, `h[nt-3]` (the `size_t` index underflows) and `v[0]` (an empty
list), all out of bounds — modelled as `none` — so no reconstruction is
produced at all; for `Nt ≥ 3` with invertible pivot blocks the identity does
hold, block by block. -/
theorem C2_theorem (h2 : 2 ≤ nt)
    (hpiv : ∀ i < nt, ((getQLU eI eNegI H phi nt).dinv.getD i 0).det ≠ 0) :
    (nt = 2 → reconstruct (getQLU eI eNegI H phi nt) = none)
    ∧ (3 ≤ nt → ∃ recon, reconstruct (getQLU eI eNegI H phi nt) = some recon
        ∧ ∀ t1 < nt, ∀ t2 < nt,
            recon t1 t2 = Qblock eI eNegI H phi nt t1 t2) := by
  constructor
  · intro h
    subst h
    rfl
  · intro h3
    obtain ⟨m, rfl⟩ : ∃ m, nt = m + 3 := ⟨nt - 3, by omega⟩
    have hG : getQLU eI eNegI H phi (m + 3) = generalQLU eI eNegI H phi (m + 3) := rfl
    rw [hG] at hpiv ⊢
    have hlen := (generalQLU_rel eI eNegI H phi (m + 3) (by omega)).len_dinv
    refine ⟨reconBlocks (generalQLU eI eNegI H phi (m + 3)), ?_, ?_⟩
    · unfold reconstruct
      rw [hlen, if_neg (by omega), if_neg (by omega)]
    · exact reconBlocks_eq_Qblock eI eNegI H phi (m + 3) (by omega) hpiv

/-- Row `t` of the block product `Q·x`: the sum over all block columns
collapses to the three blocks `P`, `T⁺`, `T⁻` of the cyclic tridiagonal
structure. -/
theorem Qrow_sum (x : ℕ → Vec K Nx) (t : ℕ) (h1 : 1 ≤ nt) (ht : t < nt) :
    (Finset.range nt).sum (fun s => (Qblock eI eNegI H phi nt t s).mulVec (x s))
      = (Pmat H).mulVec (x t)
        + (Tplus eI H phi nt t).mulVec (x ((t + nt - 1) % nt))
        + (Tminus eNegI H phi nt t).mulVec (x ((t + 1) % nt)) := by
  have key : ∀ (c : ℕ) (A : Mat K Nx), c < nt →
      (Finset.range nt).sum (fun s => (if s = c then A else 0).mulVec (x s))
        = A.mulVec (x c) := by
    intro c A hc
    have e : ∀ s, (if s = c then A else (0 : Mat K Nx)).mulVec (x s)
        = if s = c then A.mulVec (x c) else 0 := by
      intro s
      by_cases hs : s = c
      · subst hs; rw [if_pos rfl, if_pos rfl]
      · rw [if_neg hs, if_neg hs, Matrix.zero_mulVec]
    rw [Finset.sum_congr rfl (fun s _ => e s),
      Finset.sum_ite_eq' (Finset.range nt) c (fun _ => A.mulVec (x c)),
      if_pos (Finset.mem_range.mpr hc)]
  unfold Qblock
  simp only [Matrix.add_mulVec, Finset.sum_add_distrib]
  rw [key t (Pmat H) ht, key _ _ (Nat.mod_lt _ (by omega)),
    key _ _ (Nat.mod_lt _ (by omega))]

end QLUProofs

section SolveQProofs

variable {K : Type} [Field K] {Nx : ℕ}

/-- `x_{n-1}` of the backward substitution is `dinv[n-1]·y_{n-1}`. -/
theorem solveQ_eq_xlast (lu : QLU K Nx) (rhs : ℕ → Vec K Nx) {n : ℕ}
    (hn : lu.dinv.length = n) :
    solveQ lu rhs (n - 1) = solveXLast lu rhs := by
  unfold solveQ
  rw [hn, show n - 1 - (n - 1) = 0 from by omega]
  simp only [solveXRev]

theorem solveQ_last (lu : QLU K Nx) (rhs : ℕ → Vec K Nx) {n : ℕ}
    (hn : lu.dinv.length = n) :
    solveQ lu rhs (n - 1)
      = (lu.dinv.getD (n - 1) 0).mulVec (solveY lu rhs (n - 1)) := by
  rw [solveQ_eq_xlast lu rhs hn]
  unfold solveXLast
  rw [hn]

/-- `x_{n-2}` of the backward substitution (for `n ≥ 2`). -/
theorem solveQ_sub2 (lu : QLU K Nx) (rhs : ℕ → Vec K Nx) {n : ℕ}
    (hn : lu.dinv.length = n) (h2 : 2 ≤ n) :
    solveQ lu rhs (n - 2)
      = (lu.dinv.getD (n - 2) 0).mulVec (solveY lu rhs (n - 2)
          - (lu.u.getD (n - 2) 0).mulVec (solveQ lu rhs (n - 1))) := by
  conv_lhs => rw [solveQ]
  rw [hn, show n - 1 - (n - 2) = 0 + 1 from by omega]
  simp only [solveXRev, reduceIte]
  rw [hn, ← solveQ_eq_xlast lu rhs hn]

/-- `x_i` of the backward substitution for `i ≤ n-3`. -/
theorem solveQ_mid (lu : QLU K Nx) (rhs : ℕ → Vec K Nx) {n : ℕ}
    (hn : lu.dinv.length = n) (i : ℕ) (h3 : 3 ≤ n) (hi : i ≤ n - 3) :
    solveQ lu rhs i
      = (lu.dinv.getD i 0).mulVec (solveY lu rhs i
          - (lu.u.getD i 0).mulVec (solveQ lu rhs (i + 1))
          - (lu.v.getD i 0).mulVec (solveQ lu rhs (n - 1))) := by
  have esub : solveQ lu rhs (i + 1) = solveXRev lu rhs (n - 2 - i) := by
    unfold solveQ
    rw [hn, show n - 1 - (i + 1) = n - 2 - i from by omega]
  have elast : solveQ lu rhs (n - 1) = solveXLast lu rhs := solveQ_eq_xlast lu rhs hn
  conv_lhs => rw [solveQ]
  rw [hn, show n - 1 - i = (n - 2 - i) + 1 from by omega]
  simp only [solveXRev]
  rw [if_neg (by omega : ¬(n - 2 - i = 0)), hn,
    show n - 2 - (n - 2 - i) = i from by omega, ← esub, ← elast]

/-- The forward substitution without the extra last-row correction. -/
theorem solveY_seq (lu : QLU K Nx) (rhs : ℕ → Vec K Nx) {n : ℕ}
    (hn : lu.dinv.length = n) (i : ℕ) (h : ¬(1 < n ∧ i = n - 1)) :
    solveY lu rhs i = solveYSeq lu rhs i := by
  simp only [solveY]
  rw [hn, if_neg h]

/-- The last row of the forward substitution (for `n ≥ 2`). -/
theorem solveY_last (lu : QLU K Nx) (rhs : ℕ → Vec K Nx) {n : ℕ}
    (hn : lu.dinv.length = n) (h2 : 2 ≤ n) :
    solveY lu rhs (n - 1)
      = rhs (n - 1) - (lu.l.getD (n - 2) 0).mulVec (solveYSeq lu rhs (n - 2))
        - ((List.range (n - 2)).map
            (fun j => (lu.h.getD j 0).mulVec (solveYSeq lu rhs j))).sum := by
  simp only [solveY]
  rw [hn, if_pos ⟨by omega, rfl⟩]

end SolveQProofs

/-- A sum of matrices applied to a vector, distributed over the list. -/
theorem listsum_mulVec {K : Type} [Field K] {Nx : ℕ} (l : List ℕ)
    (f : ℕ → Mat K Nx) (v : Vec K Nx) :
    ((l.map f).sum).mulVec v = (l.map (fun i => (f i).mulVec v)).sum := by
  induction l with
  | nil => simp [Matrix.zero_mulVec]
  | cons a t ih => simp only [List.map_cons, List.sum_cons, Matrix.add_mulVec, ih]

theorem list_map_sub_sum {M : Type} [AddCommGroup M] (l : List ℕ) (f g : ℕ → M) :
    (l.map (fun j => f j - g j)).sum = (l.map f).sum - (l.map g).sum := by
  induction l with
  | nil => simp
  | cons a t ih =>
    simp only [List.map_cons, List.sum_cons, ih]
    abel

theorem list_range_telescope {M : Type} [AddCommGroup M] (T : ℕ → M) (m : ℕ) :
    ((List.range m).map (fun j => T (j + 1) - T j)).sum = T m - T 0 := by
  induction m with
  | zero => simp
  | succ k ih =>
    rw [List.range_succ, List.map_append, List.sum_append, ih]
    simp only [List.map_cons, List.map_nil, List.sum_cons, List.sum_nil]
    abel

section C3Proofs

variable {K : Type} [Field K] {Nx : ℕ} (eI eNegI : K → K) (H : HFM K Nx)
  (phi : ℕ → Vec K Nx) (nt : ℕ)

theorem getQLU_eq_general (h3 : 3 ≤ nt) :
    getQLU eI eNegI H phi nt = generalQLU eI eNegI H phi nt := by
  obtain ⟨m, rfl⟩ : ∃ m, nt = m + 3 := ⟨nt - 3, by omega⟩
  rfl

/-- C3: `Q(hfm, φ) · solveQ(getQLU(hfm, φ), rhs) = rhs`, row by row — confirmed
for every `Nt ≥ 1` (covering all three branches `nt1QLU`, `nt2QLU`,
`generalQLU` of `getQLU`) whenever all inverted pivot blocks `dinv[i]` are
invertible. -/
theorem C3_theorem (h1 : 1 ≤ nt)
    (hpiv : ∀ i < nt, ((getQLU eI eNegI H phi nt).dinv.getD i 0).det ≠ 0)
    (rhs : ℕ → Vec K Nx) :
    ∀ t < nt, (Finset.range nt).sum
        (fun s => (Qblock eI eNegI H phi nt t s).mulVec
          (solveQ (getQLU eI eNegI H phi nt) rhs s)) = rhs t := by
  by_cases h3 : 3 ≤ nt
  · -- general branch, `nt ≥ 3`
    rw [getQLU_eq_general eI eNegI H phi nt h3] at hpiv ⊢
    have R := generalQLU_rel eI eNegI H phi nt h3
    set G := generalQLU eI eNegI H phi nt with hGd
    have hn : G.dinv.length = nt := R.len_dinv
    have hDx : ∀ i < nt, ∀ w,
        (minv (G.dinv.getD i 0)).mulVec ((G.dinv.getD i 0).mulVec w) = w := by
      intro i hi w
      rw [Matrix.mulVec_mulVec, minv_mul (hpiv i hi), Matrix.one_mulVec]
    have hxm : ∀ j ≤ nt - 3, solveQ G rhs j
        = (G.dinv.getD j 0).mulVec (solveYSeq G rhs j
            - (G.u.getD j 0).mulVec (solveQ G rhs (j + 1))
            - (G.v.getD j 0).mulVec (solveQ G rhs (nt - 1))) := by
      intro j hj
      rw [solveQ_mid G rhs hn j h3 hj, solveY_seq G rhs hn j (by omega)]
    have hx2 : solveQ G rhs (nt - 2)
        = (G.dinv.getD (nt - 2) 0).mulVec (solveYSeq G rhs (nt - 2)
            - (G.u.getD (nt - 2) 0).mulVec (solveQ G rhs (nt - 1))) := by
      rw [solveQ_sub2 G rhs hn (by omega), solveY_seq G rhs hn (nt - 2) (by omega)]
    intro t ht
    rw [Qrow_sum eI eNegI H phi nt (fun s => solveQ G rhs s) t (by omega) ht]
    by_cases h0 : t = 0
    · -- row 0
      subst h0
      rw [wrap_left_zero (by omega : 1 ≤ nt), wrap_right (by omega : 0 + 1 < nt)]
      have hmD0 : minv (G.dinv.getD 0 0) = Pmat H := by
        rw [R.d0]
        exact minv_minv (det_ne_zero_of_minv (R.d0 ▸ hpiv 0 (by omega)))
      have hPx0 : (Pmat H).mulVec (solveQ G rhs 0)
          = solveYSeq G rhs 0
            - (G.u.getD 0 0).mulVec (solveQ G rhs (0 + 1))
            - (G.v.getD 0 0).mulVec (solveQ G rhs (nt - 1)) := by
        rw [hxm 0 (by omega), ← hmD0, hDx 0 (by omega)]
      rw [hPx0, ← R.v0, ← R.umid 0 (by omega),
        show solveYSeq G rhs 0 = rhs 0 from rfl]
      abel
    by_cases hlast : t = nt - 1
    · -- row nt-1
      subst hlast
      rw [wrap_left (by omega : 1 ≤ nt - 1) (by omega : nt - 1 < nt),
        wrap_right_last (by omega : 1 ≤ nt),
        show nt - 1 - 1 = nt - 2 from by omega]
      have hl3 : G.l.getD (nt - 3) 0
          = Tplus eI H phi nt (nt - 2) * G.dinv.getD (nt - 3) 0 := by
        have h := R.lmid (nt - 3) le_rfl
        rwa [show nt - 3 + 1 = nt - 2 from by omega] at h
      have hmN : minv (G.dinv.getD (nt - 1) 0)
          = Pmat H - G.l.getD (nt - 2) 0 * G.u.getD (nt - 2) 0
            - ((List.range (nt - 2)).map
                (fun i => G.h.getD i 0 * G.v.getD i 0)).sum := by
        rw [R.dlast]
        exact minv_minv (det_ne_zero_of_minv (R.dlast ▸ hpiv (nt - 1) (by omega)))
      have hPN : Pmat H
          = minv (G.dinv.getD (nt - 1) 0)
            + G.l.getD (nt - 2) 0 * G.u.getD (nt - 2) 0
            + ((List.range (nt - 2)).map
                (fun i => G.h.getD i 0 * G.v.getD i 0)).sum := by
        rw [hmN]
        abel
      have hPx : (minv (G.dinv.getD (nt - 1) 0)).mulVec (solveQ G rhs (nt - 1))
          = rhs (nt - 1)
            - (G.l.getD (nt - 2) 0).mulVec (solveYSeq G rhs (nt - 2))
            - ((List.range (nt - 2)).map
                (fun j => (G.h.getD j 0).mulVec (solveYSeq G rhs j))).sum := by
        rw [solveQ_last G rhs hn, hDx (nt - 1) (by omega),
          solveY_last G rhs hn (by omega)]
      have hTprod : Tplus eI H phi nt (nt - 1) * G.dinv.getD (nt - 2) 0
          = G.l.getD (nt - 2) 0
            + G.h.getD (nt - 3) 0 * G.u.getD (nt - 3) 0 * G.dinv.getD (nt - 2) 0 := by
        rw [R.llast, Matrix.sub_mul]
        exact (sub_add_cancel _ _).symm
      have hTpx : (Tplus eI H phi nt (nt - 1)).mulVec (solveQ G rhs (nt - 2))
          = (G.l.getD (nt - 2) 0).mulVec (solveYSeq G rhs (nt - 2))
            - (G.l.getD (nt - 2) 0 * G.u.getD (nt - 2) 0).mulVec (solveQ G rhs (nt - 1))
            + (G.h.getD (nt - 3) 0 * G.u.getD (nt - 3) 0).mulVec (solveQ G rhs (nt - 2)) := by
        rw [hx2, Matrix.mulVec_mulVec, hTprod, Matrix.add_mulVec,
          ← Matrix.mulVec_mulVec, ← hx2, Matrix.mulVec_sub, Matrix.mulVec_mulVec]
      have hTmx : (Tminus eNegI H phi nt (nt - 1)).mulVec (solveQ G rhs 0)
          = (G.h.getD 0 0).mulVec (solveYSeq G rhs 0)
            - (G.h.getD 0 0 * G.u.getD 0 0).mulVec (solveQ G rhs (0 + 1))
            - (G.h.getD 0 0 * G.v.getD 0 0).mulVec (solveQ G rhs (nt - 1)) := by
        rw [hxm 0 (by omega), Matrix.mulVec_mulVec, ← R.h0,
          Matrix.mulVec_sub, Matrix.mulVec_sub, Matrix.mulVec_mulVec,
          Matrix.mulVec_mulVec]
      have Ej : ∀ j, 1 ≤ j → j ≤ nt - 3 →
          (G.h.getD j 0).mulVec (solveYSeq G rhs j)
            - (G.h.getD j 0 * G.v.getD j 0).mulVec (solveQ G rhs (nt - 1))
          = (G.h.getD j 0 * G.u.getD j 0).mulVec (solveQ G rhs (j + 1))
            - (G.h.getD (j - 1) 0 * G.u.getD (j - 1) 0).mulVec (solveQ G rhs j) := by
        intro j hj1 hj3
        have hhj := R.hmid j hj1 hj3
        have hprod : G.h.getD (j - 1) 0 * G.u.getD (j - 1) 0 * G.dinv.getD j 0
            = -(G.h.getD j 0) := by rw [hhj, neg_neg]
        rw [hxm j hj3, Matrix.mulVec_mulVec, hprod, Matrix.neg_mulVec,
          Matrix.mulVec_sub, Matrix.mulVec_sub, Matrix.mulVec_mulVec,
          Matrix.mulVec_mulVec]
        abel
      have hsub : ((List.range (nt - 2)).map
            (fun j => (G.h.getD j 0).mulVec (solveYSeq G rhs j))).sum
          - ((List.range (nt - 2)).map
            (fun j => (G.h.getD j 0 * G.v.getD j 0).mulVec (solveQ G rhs (nt - 1)))).sum
          = (G.h.getD 0 0).mulVec (solveYSeq G rhs 0)
            - (G.h.getD 0 0 * G.v.getD 0 0).mulVec (solveQ G rhs (nt - 1))
            + ((G.h.getD (nt - 3) 0 * G.u.getD (nt - 3) 0).mulVec (solveQ G rhs (nt - 3 + 1))
              - (G.h.getD 0 0 * G.u.getD 0 0).mulVec (solveQ G rhs (0 + 1))) := by
        rw [← list_map_sub_sum]
        rw [show nt - 2 = (nt - 3) + 1 from by omega]
        rw [List.range_succ_eq_map, List.map_cons, List.sum_cons, List.map_map]
        congr 1
        have hcong : ((List.range (nt - 3)).map
            ((fun j => (G.h.getD j 0).mulVec (solveYSeq G rhs j)
              - (G.h.getD j 0 * G.v.getD j 0).mulVec (solveQ G rhs (nt - 1)))
              ∘ Nat.succ))
          = (List.range (nt - 3)).map (fun j =>
              (G.h.getD (j + 1) 0 * G.u.getD (j + 1) 0).mulVec (solveQ G rhs (j + 1 + 1))
              - (G.h.getD j 0 * G.u.getD j 0).mulVec (solveQ G rhs (j + 1))) := by
          apply List.map_congr_left
          intro a ha
          have haa : a < nt - 3 := List.mem_range.mp ha
          have h := Ej (a + 1) (by omega) (by omega)
          rw [show a + 1 - 1 = a from by omega] at h
          simp only [Function.comp_apply, Nat.succ_eq_add_one]
          exact h
        rw [hcong]
        exact list_range_telescope
          (fun j => (G.h.getD j 0 * G.u.getD j 0).mulVec (solveQ G rhs (j + 1))) (nt - 3)
      rw [show nt - 3 + 1 = nt - 2 from by omega] at hsub
      have hSy : ((List.range (nt - 2)).map
            (fun j => (G.h.getD j 0).mulVec (solveYSeq G rhs j))).sum
          = ((List.range (nt - 2)).map
              (fun j => (G.h.getD j 0 * G.v.getD j 0).mulVec (solveQ G rhs (nt - 1)))).sum
            + ((G.h.getD 0 0).mulVec (solveYSeq G rhs 0)
              - (G.h.getD 0 0 * G.v.getD 0 0).mulVec (solveQ G rhs (nt - 1))
              + ((G.h.getD (nt - 3) 0 * G.u.getD (nt - 3) 0).mulVec (solveQ G rhs (nt - 2))
                - (G.h.getD 0 0 * G.u.getD 0 0).mulVec (solveQ G rhs (0 + 1)))) := by
        rw [← hsub]
        abel
      rw [hPN, Matrix.add_mulVec, Matrix.add_mulVec, hPx,
        listsum_mulVec (List.range (nt - 2))
          (fun i => G.h.getD i 0 * G.v.getD i 0) (solveQ G rhs (nt - 1)),
        hTpx, hTmx, hSy]
      abel
    by_cases hsub2 : t = nt - 2
    · -- row nt-2
      subst hsub2
      rw [wrap_left (by omega : 1 ≤ nt - 2) (by omega : nt - 2 < nt),
        wrap_right (by omega : nt - 2 + 1 < nt),
        show nt - 2 - 1 = nt - 3 from by omega,
        show nt - 2 + 1 = nt - 1 from by omega]
      have hl3 : G.l.getD (nt - 3) 0
          = Tplus eI H phi nt (nt - 2) * G.dinv.getD (nt - 3) 0 := by
        have h := R.lmid (nt - 3) le_rfl
        rwa [show nt - 3 + 1 = nt - 2 from by omega] at h
      have hx3 : solveQ G rhs (nt - 3)
          = (G.dinv.getD (nt - 3) 0).mulVec (solveYSeq G rhs (nt - 3)
              - (G.u.getD (nt - 3) 0).mulVec (solveQ G rhs (nt - 2))
              - (G.v.getD (nt - 3) 0).mulVec (solveQ G rhs (nt - 1))) := by
        have h := hxm (nt - 3) le_rfl
        rwa [show nt - 3 + 1 = nt - 2 from by omega] at h
      have hTpx2 : (Tplus eI H phi nt (nt - 2)).mulVec (solveQ G rhs (nt - 3))
          = (G.l.getD (nt - 3) 0).mulVec (solveYSeq G rhs (nt - 3))
            - (G.l.getD (nt - 3) 0 * G.u.getD (nt - 3) 0).mulVec (solveQ G rhs (nt - 2))
            - (G.l.getD (nt - 3) 0 * G.v.getD (nt - 3) 0).mulVec (solveQ G rhs (nt - 1)) := by
        rw [hx3, Matrix.mulVec_mulVec, ← hl3, Matrix.mulVec_sub, Matrix.mulVec_sub,
          Matrix.mulVec_mulVec, Matrix.mulVec_mulVec]
      have hd2 : G.dinv.getD (nt - 2) 0
          = minv (Pmat H - G.l.getD (nt - 3) 0 * G.u.getD (nt - 3) 0) := by
        have h := R.dmid (nt - 2) (by omega) le_rfl
        rwa [show nt - 2 - 1 = nt - 3 from by omega] at h
      have hm2 : minv (G.dinv.getD (nt - 2) 0)
          = Pmat H - G.l.getD (nt - 3) 0 * G.u.getD (nt - 3) 0 := by
        rw [hd2]
        exact minv_minv (det_ne_zero_of_minv (hd2 ▸ hpiv (nt - 2) (by omega)))
      have hP2 : Pmat H
          = minv (G.dinv.getD (nt - 2) 0)
            + G.l.getD (nt - 3) 0 * G.u.getD (nt - 3) 0 := by
        rw [hm2]
        exact (sub_add_cancel _ _).symm
      have hPx2 : (Pmat H).mulVec (solveQ G rhs (nt - 2))
          = solveYSeq G rhs (nt - 2)
            - (G.u.getD (nt - 2) 0).mulVec (solveQ G rhs (nt - 1))
            + (G.l.getD (nt - 3) 0 * G.u.getD (nt - 3) 0).mulVec (solveQ G rhs (nt - 2)) := by
        rw [hP2, Matrix.add_mulVec, hx2, hDx (nt - 2) (by omega), ← hx2]
      have hTm2 : Tminus eNegI H phi nt (nt - 2)
          = G.u.getD (nt - 2) 0 + G.l.getD (nt - 3) 0 * G.v.getD (nt - 3) 0 := by
        rw [R.ulast]
        exact (sub_add_cancel _ _).symm
      have hyr2 : solveYSeq G rhs (nt - 2)
          = rhs (nt - 2) - (G.l.getD (nt - 3) 0).mulVec (solveYSeq G rhs (nt - 3)) := by
        rw [show nt - 2 = nt - 3 + 1 from by omega]
        simp only [solveYSeq]
      rw [hPx2, hTpx2, hTm2, Matrix.add_mulVec, hyr2]
      abel
    · -- middle rows 1 ≤ t ≤ nt-3
      have hmid1 : 1 ≤ t := by omega
      have hmid2 : t ≤ nt - 3 := by omega
      obtain ⟨s, rfl⟩ : ∃ s, t = s + 1 := ⟨t - 1, by omega⟩
      rw [wrap_left (by omega : 1 ≤ s + 1) ht, wrap_right (by omega : s + 1 + 1 < nt),
        Nat.add_sub_cancel]
      have hxs : solveQ G rhs s
          = (G.dinv.getD s 0).mulVec (solveYSeq G rhs s
              - (G.u.getD s 0).mulVec (solveQ G rhs (s + 1))
              - (G.v.getD s 0).mulVec (solveQ G rhs (nt - 1))) :=
        hxm s (by omega)
      have hxs1 : solveQ G rhs (s + 1)
          = (G.dinv.getD (s + 1) 0).mulVec (solveYSeq G rhs (s + 1)
              - (G.u.getD (s + 1) 0).mulVec (solveQ G rhs (s + 1 + 1))
              - (G.v.getD (s + 1) 0).mulVec (solveQ G rhs (nt - 1))) :=
        hxm (s + 1) hmid2
      have hds1 : G.dinv.getD (s + 1) 0
          = minv (Pmat H - G.l.getD s 0 * G.u.getD s 0) := by
        have h := R.dmid (s + 1) (by omega) (by omega)
        rwa [Nat.add_sub_cancel] at h
      have hms1 : minv (G.dinv.getD (s + 1) 0)
          = Pmat H - G.l.getD s 0 * G.u.getD s 0 := by
        rw [hds1]
        exact minv_minv (det_ne_zero_of_minv (hds1 ▸ hpiv (s + 1) (by omega)))
      have hPs1 : Pmat H
          = minv (G.dinv.getD (s + 1) 0) + G.l.getD s 0 * G.u.getD s 0 := by
        rw [hms1]
        exact (sub_add_cancel _ _).symm
      have hTpxs : (Tplus eI H phi nt (s + 1)).mulVec (solveQ G rhs s)
          = (G.l.getD s 0).mulVec (solveYSeq G rhs s)
            - (G.l.getD s 0 * G.u.getD s 0).mulVec (solveQ G rhs (s + 1))
            - (G.l.getD s 0 * G.v.getD s 0).mulVec (solveQ G rhs (nt - 1)) := by
        rw [hxs, Matrix.mulVec_mulVec, ← R.lmid s (by omega),
          Matrix.mulVec_sub, Matrix.mulVec_sub, Matrix.mulVec_mulVec,
          Matrix.mulVec_mulVec]
      have hPxs : (Pmat H).mulVec (solveQ G rhs (s + 1))
          = solveYSeq G rhs (s + 1)
            - (G.u.getD (s + 1) 0).mulVec (solveQ G rhs (s + 1 + 1))
            - (G.v.getD (s + 1) 0).mulVec (solveQ G rhs (nt - 1))
            + (G.l.getD s 0 * G.u.getD s 0).mulVec (solveQ G rhs (s + 1)) := by
        rw [hPs1, Matrix.add_mulVec, hxs1, hDx (s + 1) (by omega), ← hxs1]
      have hvs1 : (G.v.getD (s + 1) 0).mulVec (solveQ G rhs (nt - 1))
          = -((G.l.getD s 0 * G.v.getD s 0).mulVec (solveQ G rhs (nt - 1))) := by
        rw [R.vmid (s + 1) (by omega) (by omega)]
        rw [Nat.add_sub_cancel, Matrix.neg_mulVec]
      have hyrs : solveYSeq G rhs (s + 1)
          = rhs (s + 1) - (G.l.getD s 0).mulVec (solveYSeq G rhs s) := rfl
      rw [hPxs, hTpxs, ← R.umid (s + 1) hmid2, hvs1, hyrs]
      abel
  · -- nt = 1 or nt = 2
    have h2 : nt ≤ 2 := by omega
    interval_cases nt
    · -- nt = 1
      intro t ht
      interval_cases t
      have hn1 : (getQLU eI eNegI H phi 1).dinv.length = 1 := rfl
      rw [Qrow_sum eI eNegI H phi 1
        (fun s => solveQ (getQLU eI eNegI H phi 1) rhs s) 0 (by omega) (by omega)]
      rw [show (0 + 1 - 1) % 1 = 0 from rfl]
      have hx := solveQ_last (getQLU eI eNegI H phi 1) rhs hn1
      rw [show (1 : ℕ) - 1 = 0 from rfl] at hx
      rw [solveY_seq (getQLU eI eNegI H phi 1) rhs hn1 0 (by omega),
        show solveYSeq (getQLU eI eNegI H phi 1) rhs 0 = rhs 0 from rfl] at hx
      have hd : (getQLU eI eNegI H phi 1).dinv.getD 0 0
          = minv (Pmat H + Tplus eI H phi 1 0 + Tminus eNegI H phi 1 0) := rfl
      have hA : (Pmat H + Tplus eI H phi 1 0 + Tminus eNegI H phi 1 0).det ≠ 0 := by
        apply det_ne_zero_of_minv
        have h := hpiv 0 (by omega)
        rwa [hd] at h
      rw [hx, hd, Matrix.mulVec_mulVec, Matrix.mulVec_mulVec, Matrix.mulVec_mulVec,
        ← Matrix.add_mulVec, ← Matrix.add_mulVec, ← Matrix.add_mul, ← Matrix.add_mul,
        mul_minv hA, Matrix.one_mulVec]
    · -- nt = 2
      have hn2 : (getQLU eI eNegI H phi 2).dinv.length = 2 := rfl
      have hd0 : (getQLU eI eNegI H phi 2).dinv.getD 0 0 = minv (Pmat H) := rfl
      have hd1 : (getQLU eI eNegI H phi 2).dinv.getD 1 0
          = minv (Pmat H - (getQLU eI eNegI H phi 2).l.getD 0 0
              * (getQLU eI eNegI H phi 2).u.getD 0 0) := rfl
      have hu0 : (getQLU eI eNegI H phi 2).u.getD 0 0
          = Tplus eI H phi 2 0 + Tminus eNegI H phi 2 0 := rfl
      have hl0 : (getQLU eI eNegI H phi 2).l.getD 0 0
          = (Tplus eI H phi 2 1 + Tminus eNegI H phi 2 1) * minv (Pmat H) := rfl
      have hdetP : (Pmat H).det ≠ 0 := by
        apply det_ne_zero_of_minv
        have h := hpiv 0 (by omega)
        rwa [hd0] at h
      have hx1 : solveQ (getQLU eI eNegI H phi 2) rhs 1
          = ((getQLU eI eNegI H phi 2).dinv.getD 1 0).mulVec
              (rhs 1 - ((getQLU eI eNegI H phi 2).l.getD 0 0).mulVec (rhs 0)) := by
        have h := solveQ_last (getQLU eI eNegI H phi 2) rhs hn2
        have hy := solveY_last (getQLU eI eNegI H phi 2) rhs hn2 le_rfl
        rw [show (2 : ℕ) - 1 = 1 from rfl] at h
        rw [show (2 : ℕ) - 1 = 1 from rfl, show (2 : ℕ) - 2 = 0 from rfl] at hy
        simp only [List.range_zero, List.map_nil, List.sum_nil, sub_zero] at hy
        rw [show solveYSeq (getQLU eI eNegI H phi 2) rhs 0 = rhs 0 from rfl] at hy
        rw [h, hy]
      have hx0 : solveQ (getQLU eI eNegI H phi 2) rhs 0
          = ((getQLU eI eNegI H phi 2).dinv.getD 0 0).mulVec
              (rhs 0 - ((getQLU eI eNegI H phi 2).u.getD 0 0).mulVec
                (solveQ (getQLU eI eNegI H phi 2) rhs 1)) := by
        have h := solveQ_sub2 (getQLU eI eNegI H phi 2) rhs hn2 le_rfl
        rw [show (2 : ℕ) - 2 = 0 from rfl, show (2 : ℕ) - 1 = 1 from rfl] at h
        rw [solveY_seq (getQLU eI eNegI H phi 2) rhs hn2 0 (by omega),
          show solveYSeq (getQLU eI eNegI H phi 2) rhs 0 = rhs 0 from rfl] at h
        exact h
      intro t ht
      interval_cases t
      · -- row 0
        rw [Qrow_sum eI eNegI H phi 2
          (fun s => solveQ (getQLU eI eNegI H phi 2) rhs s) 0 (by omega) (by omega)]
        rw [show (0 + 2 - 1) % 2 = 1 from rfl]
        rw [hx0, hd0, Matrix.mulVec_mulVec, mul_minv hdetP, Matrix.one_mulVec,
          hu0, Matrix.add_mulVec]
        abel
      · -- row 1
        rw [Qrow_sum eI eNegI H phi 2
          (fun s => solveQ (getQLU eI eNegI H phi 2) rhs s) 1 (by omega) (by omega)]
        rw [show (1 + 2 - 1) % 2 = 0 from rfl]
        have hm1 : minv ((getQLU eI eNegI H phi 2).dinv.getD 1 0)
            = Pmat H - (getQLU eI eNegI H phi 2).l.getD 0 0
                * (getQLU eI eNegI H phi 2).u.getD 0 0 := by
          rw [hd1]
          exact minv_minv (det_ne_zero_of_minv (hd1 ▸ hpiv 1 (by omega)))
        have hP1 : Pmat H
            = minv ((getQLU eI eNegI H phi 2).dinv.getD 1 0)
              + (getQLU eI eNegI H phi 2).l.getD 0 0
                * (getQLU eI eNegI H phi 2).u.getD 0 0 := by
          rw [hm1]
          exact (sub_add_cancel _ _).symm
        have hDx1 : (minv ((getQLU eI eNegI H phi 2).dinv.getD 1 0)).mulVec
              (((getQLU eI eNegI H phi 2).dinv.getD 1 0).mulVec
                (rhs 1 - ((getQLU eI eNegI H phi 2).l.getD 0 0).mulVec (rhs 0)))
            = rhs 1 - ((getQLU eI eNegI H phi 2).l.getD 0 0).mulVec (rhs 0) := by
          rw [Matrix.mulVec_mulVec, minv_mul (hpiv 1 (by omega)), Matrix.one_mulVec]
        have hPx1a : (Pmat H).mulVec (solveQ (getQLU eI eNegI H phi 2) rhs 1)
            = rhs 1 - ((getQLU eI eNegI H phi 2).l.getD 0 0).mulVec (rhs 0)
              + ((getQLU eI eNegI H phi 2).l.getD 0 0
                  * (getQLU eI eNegI H phi 2).u.getD 0 0).mulVec
                    (solveQ (getQLU eI eNegI H phi 2) rhs 1) := by
          rw [hx1, hP1, Matrix.add_mulVec, hDx1]
        have hPx1 : (Pmat H).mulVec (solveQ (getQLU eI eNegI H phi 2) rhs 1)
            = rhs 1
              - ((Tplus eI H phi 2 1 * minv (Pmat H)).mulVec (rhs 0)
                + (Tminus eNegI H phi 2 1 * minv (Pmat H)).mulVec (rhs 0))
              + ((Tplus eI H phi 2 1 * minv (Pmat H)
                  * (getQLU eI eNegI H phi 2).u.getD 0 0).mulVec
                    (solveQ (getQLU eI eNegI H phi 2) rhs 1)
                + (Tminus eNegI H phi 2 1 * minv (Pmat H)
                  * (getQLU eI eNegI H phi 2).u.getD 0 0).mulVec
                    (solveQ (getQLU eI eNegI H phi 2) rhs 1)) := by
          rw [hPx1a, hl0]
          simp only [Matrix.add_mul, Matrix.add_mulVec]
        have hTpx : (Tplus eI H phi 2 1).mulVec (solveQ (getQLU eI eNegI H phi 2) rhs 0)
            = (Tplus eI H phi 2 1 * minv (Pmat H)).mulVec (rhs 0)
              - (Tplus eI H phi 2 1 * minv (Pmat H)
                  * (getQLU eI eNegI H phi 2).u.getD 0 0).mulVec
                    (solveQ (getQLU eI eNegI H phi 2) rhs 1) := by
          rw [hx0, hd0, Matrix.mulVec_mulVec, Matrix.mulVec_sub, Matrix.mulVec_mulVec]
        have hTmx : (Tminus eNegI H phi 2 1).mulVec (solveQ (getQLU eI eNegI H phi 2) rhs 0)
            = (Tminus eNegI H phi 2 1 * minv (Pmat H)).mulVec (rhs 0)
              - (Tminus eNegI H phi 2 1 * minv (Pmat H)
                  * (getQLU eI eNegI H phi 2).u.getD 0 0).mulVec
                    (solveQ (getQLU eI eNegI H phi 2) rhs 1) := by
          rw [hx0, hd0, Matrix.mulVec_mulVec, Matrix.mulVec_sub, Matrix.mulVec_mulVec]
        rw [hPx1, hTpx, hTmx]
        abel

end C3Proofs

section C1Proofs

variable {K : Type} [Field K] {Nx : ℕ} (eI eNegI : K → K) (H : HFM K Nx)
  (phi : ℕ → Vec K Nx) (nt : ℕ)

/-- Folding `acc ↦ acc·K⁻¹·F(t)` over a list of time slices multiplies the
ascending product of the factors onto the initial value. -/
theorem foldl_KF (sp : Species) (l : List ℕ) (a : Mat K Nx) :
    l.foldl (fun acc t => acc * KinvM H sp * Fmat eI eNegI H phi nt t sp false) a
      = a * (l.map (fun t => KinvM H sp * Fmat eI eNegI H phi nt t sp false)).prod := by
  induction l generalizing a with
  | nil => simp
  | cons x xs ih =>
    simp only [List.foldl_cons, List.map_cons, List.prod_cons, ih]
    simp [mul_assoc]

/-- The accumulator of `logdetM` is the ascending-time product
`(K⁻¹F(0))·(K⁻¹F(1))⋯(K⁻¹F(NT-1))`. -/
theorem auxA_eq_prod (sp : Species) (h1 : 1 ≤ nt) :
    auxA eI eNegI H phi nt sp
      = ((List.range nt).map
          (fun t => KinvM H sp * Fmat eI eNegI H phi nt t sp false)).prod := by
  obtain ⟨m, rfl⟩ : ∃ m, nt = m + 1 := ⟨nt - 1, by omega⟩
  unfold auxA
  rw [Nat.add_sub_cancel, foldl_KF, List.range_eq_range', List.range'_succ,
    List.map_cons, List.prod_cons]

/-- C1 (corrected): with `μ = 0` and invertible `K`, `logdetM` returns
`toFirstLogBranch(-NT·logdetKinv + logdet(1 + A))` where
`A = (K⁻¹·F(0))·(K⁻¹·F(1))⋯(K⁻¹·F(NT-1))` is accumulated in ascending time
order — the spec's formula instead subtracts `logdet(I + A)` (wrong sign) and
writes the product in descending order. -/
theorem C1_theorem [DecidableEq K] (logdetF : Mat K Nx → K) (tflbF : K → K)
    (sp : Species) (h1 : 1 ≤ nt) (hmu : H.mu = 0) (hdet : (Kmat H sp).det ≠ 0) :
    logdetM eI eNegI logdetF tflbF H phi nt sp
      = some (tflbF (-(nt : K) * logdetF (KinvM H sp)
          + logdetF (1 + ((List.range nt).map
              (fun t => KinvM H sp * Fmat eI eNegI H phi nt t sp false)).prod))) := by
  unfold logdetM
  rw [if_neg (by simp [hmu]), if_neg hdet,
    auxA_eq_prod eI eNegI H phi nt sp h1]

end C1Proofs

section C4C6Proofs

variable {K : Type} [Field K] {Nx : ℕ} (eI eNegI : K → K) (H : HFM K Nx)
  (phi : ℕ → Vec K Nx) (nt : ℕ)

/-- C4 (corrected): `logdetM` does refuse `μ ≠ 0`, but `solveM` performs no
`μ` check at all — whenever its two LAPACK inversions succeed it returns a
result for any `μ`. -/
theorem C4_theorem [DecidableEq K] (sp : Species) (logdetF : Mat K Nx → K)
    (tflbF : K → K) (hmu : H.mu ≠ 0) :
    logdetM eI eNegI logdetF tflbF H phi nt sp = none
    ∧ ∀ rhs, (Kmat H sp).det ≠ 0 → (invAmat eI eNegI H phi nt sp).det ≠ 0 →
        ∃ out, solveM eI eNegI H phi nt sp rhs = some out := by
  constructor
  · unfold logdetM
    rw [if_pos hmu]
  · intro rhs hK hA
    unfold solveM
    rw [if_neg hK, if_neg hA]
    exact ⟨_, rfl⟩

/-- C6 (corrected): for `Nt ≥ 2` the block structure of `M` is exactly the
claimed one (`K` on the diagonal, `-F(t)` on the sub-diagonal, `+F(0)` in the
corner, zero elsewhere), but for `Nt = 1` the corner assignment
`M(0, NT-1) = F(0)` lands on `(0,0)` and overwrites the `K` written there. -/
theorem C6_theorem (sp : Species) :
    (2 ≤ nt →
      (∀ t < nt, Mblock eI eNegI H phi nt sp t t = Kmat H sp)
      ∧ (∀ t, 1 ≤ t → t < nt →
          Mblock eI eNegI H phi nt sp t (t - 1)
            = -(Fmat eI eNegI H phi nt t sp false))
      ∧ Mblock eI eNegI H phi nt sp 0 (nt - 1)
          = Fmat eI eNegI H phi nt 0 sp false
      ∧ (∀ t1 < nt, ∀ t2 < nt, ¬(t2 = t1) → ¬(t2 + 1 = t1)
          → ¬(t1 = 0 ∧ t2 = nt - 1) → Mblock eI eNegI H phi nt sp t1 t2 = 0))
    ∧ (nt = 1 →
        Mblock eI eNegI H phi nt sp 0 0 = Fmat eI eNegI H phi nt 0 sp false) := by
  constructor
  · intro h2
    refine ⟨?_, ?_, ?_, ?_⟩
    · intro t ht
      unfold Mblock
      by_cases h0 : t = 0
      · subst h0
        rw [if_pos rfl, if_neg (by omega : ¬(0 = nt - 1)), if_pos rfl]
      · rw [if_neg h0, if_pos rfl]
    · intro t ht1 ht2
      unfold Mblock
      rw [if_neg (by omega : ¬(t = 0)), if_neg (by omega : ¬(t - 1 = t)),
        if_pos (by omega : t - 1 + 1 = t)]
    · unfold Mblock
      rw [if_pos rfl, if_pos rfl]
    · intro t1 ht1 t2 ht2 hne1 hne2 hne3
      unfold Mblock
      by_cases h0 : t1 = 0
      · subst h0
        rw [if_pos rfl, if_neg (by omega : ¬(t2 = nt - 1)),
          if_neg (by omega : ¬(t2 = 0))]
      · rw [if_neg h0, if_neg hne1, if_neg hne2]
  · intro h1
    subst h1
    rfl

end C4C6Proofs

/-- `toFirstLogBranch` fixes every real number: `((r+π) mod 2π) - π = r` needs
`|r| < π`, but for the reals produced below the quotient `1/2` truncates to
`0` so the shift vanishes. -/
theorem tflb_real (r : ℝ) : toFirstLogBranch ⟨r, 0⟩ = ⟨r, 0⟩ := by
  have h2 : (2 : ℝ) * Real.pi ≠ 0 := by positivity
  have hq : (0 + Real.pi) / (2 * Real.pi) = 1 / 2 := by
    rw [zero_add]
    field_simp
    ring
  have hr : rtrunc ((0 + Real.pi) / (2 * Real.pi)) = 0 := by
    rw [hq, rtrunc, if_pos (by norm_num : (0:ℝ) ≤ 1 / 2)]
    exact Int.floor_eq_zero_iff.mpr (by constructor <;> norm_num)
  apply Complex.ext
  · rfl
  · show fmodC (0 + Real.pi) (2 * Real.pi) - Real.pi = 0
    rw [fmodC, hr]
    push_cast
    ring

/-- `logdet` of the 1×1 identity is `0`. -/
theorem logdetFin1_one : logdetFin1 (1 : Mat ℂ 1) = 0 := by
  unfold logdetFin1
  rw [Matrix.one_apply_eq, Complex.log_one]
  exact tflb_real 0

/-- `logdet` of the 1×1 matrix `2` is `log 2`. -/
theorem logdetFin1_two : logdetFin1 ((1 : Mat ℂ 1) + 1) = ((Real.log 2 : ℝ) : ℂ) := by
  unfold logdetFin1
  rw [Matrix.add_apply, Matrix.one_apply_eq,
    show (1 : ℂ) + 1 = ((2 : ℝ) : ℂ) by norm_num,
    ← Complex.ofReal_log (by norm_num : (0 : ℝ) ≤ 2)]
  exact tflb_real (Real.log 2)

/-- `K` of the one-site instance over ℂ is the identity. -/
theorem Kmat_c1 : Kmat (⟨0, 0, 1⟩ : HFM ℂ 1) Species.PARTICLE = 1 := by
  simp [Kmat]

theorem KinvM_c1 : KinvM (⟨0, 0, 1⟩ : HFM ℂ 1) Species.PARTICLE = 1 := by
  rw [KinvM, Kmat_c1]
  simp [minv]

theorem Fmat_c1 (nt tp : ℕ) (sp : Species) (inv : Bool) :
    Fmat cexpI cexpNegI (⟨0, 0, 1⟩ : HFM ℂ 1) (fun _ _ => 0) nt tp sp inv = 1 := by
  simp [Fmat, cexpI, cexpNegI]

theorem auxA_c1 :
    auxA cexpI cexpNegI (⟨0, 0, 1⟩ : HFM ℂ 1) (fun _ _ => 0) 1 Species.PARTICLE = 1 := by
  unfold auxA
  rw [show (1 : ℕ) - 1 = 0 from rfl]
  simp only [List.range'_zero, List.foldl_nil, KinvM_c1, Fmat_c1, one_mul]

/-- C1 (counterexample to the spec's formula): on the one-site instance with
`κ = 0`, `μ = 0`, `σκ = +1`, `Nt = 1`, `φ ≡ 0` the code returns `log 2`
while the spec's formula `firstLogBranch(-Nt·logdetKinv - logdet(I+A))`
evaluates to `-log 2`; the two differ because `log 2 > 0`. -/
theorem C1_counterexample :
    logdetM cexpI cexpNegI logdetFin1 toFirstLogBranch
        (⟨0, 0, 1⟩ : HFM ℂ 1) (fun _ _ => 0) 1 Species.PARTICLE
      = some ((Real.log 2 : ℝ) : ℂ)
    ∧ toFirstLogBranch
        (-(1 : ℂ) * logdetFin1 (KinvM (⟨0, 0, 1⟩ : HFM ℂ 1) Species.PARTICLE)
          - logdetFin1 (1 + auxA cexpI cexpNegI (⟨0, 0, 1⟩ : HFM ℂ 1)
              (fun _ _ => 0) 1 Species.PARTICLE))
      = ((-Real.log 2 : ℝ) : ℂ)
    ∧ (some ((Real.log 2 : ℝ) : ℂ) : Option ℂ) ≠ some ((-Real.log 2 : ℝ) : ℂ) := by
  refine ⟨?_, ?_, ?_⟩
  · unfold logdetM
    rw [if_neg (by simp), if_neg (by rw [Kmat_c1, Matrix.det_one]; norm_num),
      KinvM_c1, logdetFin1_one, auxA_c1, logdetFin1_two]
    rw [show -((1 : ℕ) : ℂ) * 0 + ((Real.log 2 : ℝ) : ℂ) = ((Real.log 2 : ℝ) : ℂ)
      by ring]
    exact congrArg some (tflb_real (Real.log 2))
  · rw [KinvM_c1, logdetFin1_one, auxA_c1, logdetFin1_two]
    rw [show -(1 : ℂ) * 0 - ((Real.log 2 : ℝ) : ℂ) = ((-Real.log 2 : ℝ) : ℂ) by
      push_cast; ring]
    exact tflb_real (-Real.log 2)
  · intro h
    have hlog : (0 : ℝ) < Real.log 2 := Real.log_pos (by norm_num)
    have h2 := Option.some_injective ℂ h
    rw [Complex.ofReal_inj] at h2
    linarith

/-!
The κ ≡ 0 action instance (claim C8): shortcut, force, logdetM and eval.
-/

theorem bip_zero {K : Type} [Field K] [DecidableEq K] {Nx : ℕ} :
    isBipartite (0 : Mat K Nx) = true :=
  decide_eq_true ⟨fun _ => true, fun _ _ h => absurd rfl h⟩

theorem shortcut_zero {K : Type} [Field K] [DecidableEq K] {Nx : ℕ} :
    shortcutForHoles HFABasis.PARTICLE_HOLE (0 : Mat K Nx) (0 : K) 1 = true := by
  unfold shortcutForHoles holeShortcutPossible
  rw [bip_zero]
  rw [if_neg (show ¬¬(true = true) from not_not_intro rfl)]
  rw [if_neg (show ¬((0 : K) ≠ 0) from not_not_intro rfl)]
  rw [if_neg (show ¬((1 : ℤ) ≠ 1) from not_not_intro rfl)]

theorem det_smul_one1 {K : Type} [Field K] (c : K) :
    ((c • (1 : Mat K 1)).det) = c := by
  rw [Matrix.det_fin_one]
  simp [Matrix.smul_apply, Matrix.one_apply_eq]

theorem minv_two_one : minv ((1 : Mat ℂ 1) + 1) = ((2 : ℂ)⁻¹) • 1 := by
  rw [← two_smul ℂ (1 : Mat ℂ 1), minv, Matrix.adjugate_fin_one, Matrix.det_fin_one]
  simp only [Matrix.smul_apply, Matrix.one_apply_eq, smul_eq_mul, mul_one]

theorem lefts_c8 (j : ℕ) :
    leftsF cexpI cexpNegI (⟨0, 0, 1⟩ : HFM ℂ 1) (fun _ _ => 0) 2 1
      Species.PARTICLE j = 1 := by
  induction j with
  | zero => simp [leftsF, Fmat_c1]
  | succ n ih => simp [leftsF, Fmat_c1, ih]

theorem Ainv_c8 :
    AinvF cexpI cexpNegI (⟨0, 0, 1⟩ : HFM ℂ 1) (fun _ _ => 0) 2 1
      Species.PARTICLE = 1 := by
  simp [AinvF, Fmat_c1, lefts_c8]

theorem detA_c8 :
    ¬((1 + AinvF cexpI cexpNegI (⟨0, 0, 1⟩ : HFM ℂ 1) (fun _ _ => 0) 2 1
        Species.PARTICLE).det = 0) := by
  rw [Ainv_c8, ← two_smul ℂ (1 : Mat ℂ 1), det_smul_one1]
  norm_num

theorem right_c8 (t : ℕ) :
    rightAt cexpI cexpNegI (⟨0, 0, 1⟩ : HFM ℂ 1) (fun _ _ => 0) 2 1
      Species.PARTICLE t = ((2 : ℂ)⁻¹) • 1 := by
  induction t with
  | zero => simp [rightAt, Ainv_c8, minv_two_one, Fmat_c1]
  | succ n ih => simp [rightAt, ih, Fmat_c1]

theorem force_part_c8 :
    forceDirectSinglePart cexpI cexpNegI (⟨0, 0, 1⟩ : HFM ℂ 1) (fun _ _ => 0) 2
        (Kmat (⟨0, 0, 1⟩ : HFM ℂ 1) Species.PARTICLE) Species.PARTICLE
      = some (fun _ _ => ((2 : ℂ)⁻¹)) := by
  rw [Kmat_c1]
  unfold forceDirectSinglePart
  rw [if_neg (by norm_num : ¬(2 < 2)), if_neg detA_c8]
  refine congrArg some ?_
  funext t
  by_cases h1 : t = 2 - 1
  · rw [if_pos h1, Ainv_c8, one_mul, minv_two_one]
    funext x
    simp [Matrix.diag]
  · rw [if_neg h1, lefts_c8, one_mul, right_c8]
    funext x
    simp [Matrix.diag]

/-- C8 (corrected): with κ ≡ 0, μ = 0, σκ = +1 each `K` matrix is exactly the
identity and the hole shortcut is taken (κ = 0 is trivially bipartite); at
`φ ≡ 0`, `Nt = 2` over ℂ the force is exactly the zero vector.  The other two
claimed identities (`logdetM = 0`, `eval = 0`) are false — see the
counterexample. -/
theorem C8_theorem {K : Type} [Field K] [DecidableEq K] {Nx : ℕ} (sp : Species) :
    Kmat (⟨0, 0, 1⟩ : HFM K Nx) sp = 1
    ∧ shortcutForHoles HFABasis.PARTICLE_HOLE (0 : Mat K Nx) (0 : K) 1 = true
    ∧ actionForceDiaOnePH cexpI cexpNegI (fun z => (starRingEnd ℂ) z) Complex.I
        (⟨0, 0, 1⟩ : HFM ℂ 1) (fun _ _ => 0) 2 = some (fun _ _ => 0) := by
  refine ⟨by cases sp <;> simp [Kmat], shortcut_zero, ?_⟩
  unfold actionForceDiaOnePH
  rw [show shortcutForHoles HFABasis.PARTICLE_HOLE (⟨0, 0, 1⟩ : HFM ℂ 1).kappa
      (⟨0, 0, 1⟩ : HFM ℂ 1).mu (⟨0, 0, 1⟩ : HFM ℂ 1).sigmaKappa = true
    from shortcut_zero, if_pos rfl, force_part_c8]
  refine congrArg some ?_
  funext t x
  show -Complex.I * ((2 : ℂ)⁻¹ - (starRingEnd ℂ) ((2 : ℂ)⁻¹)) = 0
  rw [map_inv₀, map_ofNat]
  ring

theorem auxA_c82 :
    auxA cexpI cexpNegI (⟨0, 0, 1⟩ : HFM ℂ 1) (fun _ _ => 0) 2
      Species.PARTICLE = 1 := by
  unfold auxA
  rw [show (2 : ℕ) - 1 = 1 from rfl, show List.range' 1 1 = [1] from rfl]
  simp only [List.foldl_cons, List.foldl_nil, KinvM_c1, Fmat_c1, one_mul, mul_one]

theorem logdetM_c82 :
    logdetM cexpI cexpNegI logdetFin1 toFirstLogBranch (⟨0, 0, 1⟩ : HFM ℂ 1)
        (fun _ _ => 0) 2 Species.PARTICLE = some ((Real.log 2 : ℝ) : ℂ) := by
  unfold logdetM
  rw [if_neg (by simp), if_neg (by rw [Kmat_c1, Matrix.det_one]; norm_num),
    KinvM_c1, logdetFin1_one, auxA_c82, logdetFin1_two,
    show -((2 : ℕ) : ℂ) * 0 + ((Real.log 2 : ℝ) : ℂ) = ((Real.log 2 : ℝ) : ℂ)
      by ring]
  exact congrArg some (tflb_real (Real.log 2))

/-- C8 (counterexample to the claim): on the κ ≡ 0 instance with `Nt = 2`,
`φ ≡ 0`, `logdetM` is `log 2 ≠ 0` and the action value is `-2·log 2 ≠ 0`. -/
theorem C8_counterexample :
    logdetM cexpI cexpNegI logdetFin1 toFirstLogBranch (⟨0, 0, 1⟩ : HFM ℂ 1)
        (fun _ _ => 0) 2 Species.PARTICLE = some ((Real.log 2 : ℝ) : ℂ)
    ∧ ((Real.log 2 : ℝ) : ℂ) ≠ 0
    ∧ actionEvalDiaOnePH cexpI cexpNegI (fun z => (starRingEnd ℂ) z) logdetFin1
        toFirstLogBranch (⟨0, 0, 1⟩ : HFM ℂ 1) (fun _ _ => 0) 2
      = some (((-(Real.log 2 + Real.log 2) : ℝ) : ℂ))
    ∧ (((-(Real.log 2 + Real.log 2) : ℝ) : ℂ)) ≠ 0 := by
  have hlog : (0 : ℝ) < Real.log 2 := Real.log_pos (by norm_num)
  refine ⟨logdetM_c82, ?_, ?_, ?_⟩
  · exact Complex.ofReal_ne_zero.mpr (by linarith)
  · unfold actionEvalDiaOnePH
    rw [show shortcutForHoles HFABasis.PARTICLE_HOLE (⟨0, 0, 1⟩ : HFM ℂ 1).kappa
        (⟨0, 0, 1⟩ : HFM ℂ 1).mu (⟨0, 0, 1⟩ : HFM ℂ 1).sigmaKappa = true
      from shortcut_zero, if_pos rfl, logdetM_c82]
    show some (-(toFirstLogBranch (((Real.log 2 : ℝ) : ℂ)
        + (starRingEnd ℂ) ((Real.log 2 : ℝ) : ℂ)))) = _
    rw [Complex.conj_ofReal, ← Complex.ofReal_add]
    rw [show toFirstLogBranch (((Real.log 2 + Real.log 2 : ℝ)) : ℂ)
        = (((Real.log 2 + Real.log 2 : ℝ)) : ℂ)
      from tflb_real (Real.log 2 + Real.log 2)]
    rw [← Complex.ofReal_neg]
  · exact Complex.ofReal_ne_zero.mpr (by linarith)

/-!
Evaluation of the concrete one-site instance `qOne` (κ = 0, μ = 0, σκ = +1)
at `φ ≡ 0` with the frozen phase maps `oneF`.  These computations feed the
executable witnesses.
-/

theorem sm_add {Nx : ℕ} (a b : ℚ) :
    a • (1 : Mat ℚ Nx) + b • 1 = (a + b) • 1 := (add_smul a b 1).symm

theorem sm_sub {Nx : ℕ} (a b : ℚ) :
    a • (1 : Mat ℚ Nx) - b • 1 = (a - b) • 1 := (sub_smul a b 1).symm

theorem sm_mul {Nx : ℕ} (a b : ℚ) :
    (a • (1 : Mat ℚ Nx)) * (b • 1) = (a * b) • 1 := by
  rw [Matrix.smul_mul, Matrix.mul_smul, one_mul, smul_smul]

theorem wit_Pmat : Pmat qOne = (2 : ℚ) • 1 := by
  simp [Pmat, qOne]

theorem wit_minv (c : ℚ) : minv (c • (1 : Mat ℚ 1)) = c⁻¹ • 1 := by
  rw [minv, Matrix.adjugate_fin_one, Matrix.det_fin_one]
  simp only [Matrix.smul_apply, Matrix.one_apply_eq, smul_eq_mul, mul_one]

theorem wit_det (c : ℚ) : (c • (1 : Mat ℚ 1)).det = c := by
  rw [Matrix.det_fin_one]
  simp [Matrix.smul_apply, Matrix.one_apply_eq]

theorem wit_Tplus (nt tp : ℕ) :
    Tplus oneF qOne phiZero nt tp = (if tp = 0 then (1 : ℚ) else -1) • 1 := by
  unfold Tplus oneF
  ext x y
  have hxy : x = y := Subsingleton.elim x y
  subst hxy
  simp only [Matrix.of_apply, Matrix.sub_apply, Matrix.smul_apply,
    Matrix.one_apply_eq, qOne, smul_eq_mul]
  norm_num
  split_ifs <;> norm_num

theorem wit_Tminus (nt tp : ℕ) :
    Tminus oneF qOne phiZero nt tp = (if tp = nt - 1 then (1 : ℚ) else -1) • 1 := by
  unfold Tminus oneF
  ext x y
  have hxy : x = y := Subsingleton.elim x y
  subst hxy
  simp only [Matrix.of_apply, Matrix.sub_apply, Matrix.smul_apply,
    Matrix.one_apply_eq, qOne, smul_eq_mul]
  norm_num
  split_ifs <;> norm_num

theorem wit_qlu2_dinv :
    (getQLU oneF oneF qOne phiZero 2).dinv
      = [((2 : ℚ)⁻¹) • 1, ((2 : ℚ)⁻¹) • 1] := by
  show (nt2QLU oneF oneF qOne phiZero).dinv = _
  simp only [nt2QLU, wit_Pmat, wit_Tplus, wit_Tminus, wit_minv, reduceIte,
    sm_add, sm_sub, sm_mul]
  norm_num

theorem wit_qlu3_dinv :
    (getQLU oneF oneF qOne phiZero 3).dinv
      = [((2 : ℚ)⁻¹) • 1, ((2 : ℚ) / 3) • 1, ((3 : ℚ) / 4) • 1] := by
  show (generalQLU oneF oneF qOne phiZero 3).dinv = _
  simp only [generalQLU, Nat.sub_self, List.range'_zero, List.foldl_nil,
    qluInit, wit_Pmat, wit_Tplus, wit_Tminus, wit_minv,
    show (3 : ℕ) - 2 = 1 from rfl, show (3 : ℕ) - 1 = 2 from rfl,
    List.getD_cons_zero, show List.range 1 = [0] from rfl,
    List.map_cons, List.map_nil, List.sum_cons, List.sum_nil,
    List.getElem?_cons_zero, Option.getD_some, mul_one, one_mul,
    reduceIte, sm_add, sm_sub, sm_mul,
    List.cons_append, List.nil_append, add_zero]
  norm_num

theorem wit_qlu2_piv :
    ∀ i < 2, ((getQLU oneF oneF qOne phiZero 2).dinv.getD i 0).det ≠ 0 := by
  intro i hi
  rw [wit_qlu2_dinv]
  interval_cases i
  · show (((2 : ℚ)⁻¹) • (1 : Mat ℚ 1)).det ≠ 0
    rw [wit_det]; norm_num
  · show (((2 : ℚ)⁻¹) • (1 : Mat ℚ 1)).det ≠ 0
    rw [wit_det]; norm_num

theorem wit_qlu3_piv :
    ∀ i < 3, ((getQLU oneF oneF qOne phiZero 3).dinv.getD i 0).det ≠ 0 := by
  intro i hi
  rw [wit_qlu3_dinv]
  interval_cases i
  · show (((2 : ℚ)⁻¹) • (1 : Mat ℚ 1)).det ≠ 0
    rw [wit_det]; norm_num
  · show (((2 : ℚ) / 3) • (1 : Mat ℚ 1)).det ≠ 0
    rw [wit_det]; norm_num
  · show (((3 : ℚ) / 4) • (1 : Mat ℚ 1)).det ≠ 0
    rw [wit_det]; norm_num

theorem C2_theorem_witness :
    reconstruct (getQLU oneF oneF qOne phiZero 2) = none
    ∧ ∃ recon, reconstruct (getQLU oneF oneF qOne phiZero 3) = some recon
        ∧ ∀ t1 < 3, ∀ t2 < 3,
            recon t1 t2 = Qblock oneF oneF qOne phiZero 3 t1 t2 :=
  ⟨(C2_theorem oneF oneF qOne phiZero 2 (by norm_num) wit_qlu2_piv).1 rfl,
   (C2_theorem oneF oneF qOne phiZero 3 (by norm_num) wit_qlu3_piv).2 (by norm_num)⟩

theorem C3_theorem_witness :
    (Finset.range 3).sum (fun s => (Qblock oneF oneF qOne phiZero 3 0 s).mulVec
        (solveQ (getQLU oneF oneF qOne phiZero 3) (fun _ _ => 1) s))
      = (fun _ _ => (1 : ℚ)) 0 :=
  C3_theorem oneF oneF qOne phiZero 3 (by norm_num) wit_qlu3_piv
    (fun _ _ => 1) 0 (by norm_num)

theorem C1_theorem_witness :
    logdetM oneF oneF (fun _ => (0 : ℚ)) id qOne phiZero 1 Species.PARTICLE
      = some (id (-((1 : ℕ) : ℚ) * (fun _ => (0 : ℚ)) (KinvM qOne Species.PARTICLE)
          + (fun _ => (0 : ℚ)) (1 + ((List.range 1).map
              (fun t => KinvM qOne Species.PARTICLE
                * Fmat oneF oneF qOne phiZero 1 t Species.PARTICLE false)).prod))) :=
  C1_theorem oneF oneF qOne phiZero 1 (fun _ => (0 : ℚ)) id Species.PARTICLE
    (by norm_num) rfl
    (by rw [Matrix.det_fin_one]; simp [Kmat, qOne])

theorem C10_theorem_witness :
    (getQLU oneF oneF qOne phiZero 3).isConsistent = true :=
  (C10_theorem oneF oneF qOne phiZero 3 (by norm_num)).1

/-- With the constant-one phase maps every `F` block is the identity,
whatever the parameters. -/
theorem wit_F (Hq : HFM ℚ 1) (p : ℕ → Vec ℚ 1) (nt tp : ℕ)
    (sp : Species) (inv : Bool) : Fmat oneF oneF Hq p nt tp sp inv = 1 := by
  simp [Fmat, oneF]

theorem wit_K4 : Kmat (⟨0, 1, 1⟩ : HFM ℚ 1) Species.PARTICLE = (2 : ℚ) • 1 := by
  simp [Kmat]
  norm_num

theorem wit_detK4 : (Kmat (⟨0, 1, 1⟩ : HFM ℚ 1) Species.PARTICLE).det ≠ 0 := by
  rw [wit_K4, wit_det]
  norm_num

theorem wit_Kinv4 :
    KinvM (⟨0, 1, 1⟩ : HFM ℚ 1) Species.PARTICLE = ((2 : ℚ)⁻¹) • 1 := by
  rw [KinvM, wit_K4, wit_minv]

theorem wit_part4 :
    partialA oneF oneF (⟨0, 1, 1⟩ : HFM ℚ 1) phiZero 2 Species.PARTICLE 0
      = ((2 : ℚ)⁻¹) • 1 := by
  simp only [partialA, wit_Kinv4, wit_F, mul_one]

theorem wit_A4 :
    invAmat oneF oneF (⟨0, 1, 1⟩ : HFM ℚ 1) phiZero 2 Species.PARTICLE
      = 1 + ((2 : ℚ)⁻¹ * (2 : ℚ)⁻¹) • 1 := by
  unfold invAmat
  rw [show (2 : ℕ) - 1 = 1 from rfl, show (2 : ℕ) - 2 = 0 from rfl,
    wit_Kinv4, wit_F, mul_one, wit_part4, sm_mul]

theorem wit_detA4 :
    (invAmat oneF oneF (⟨0, 1, 1⟩ : HFM ℚ 1) phiZero 2 Species.PARTICLE).det ≠ 0 := by
  rw [wit_A4, Matrix.det_fin_one]
  simp only [Matrix.add_apply, Matrix.smul_apply, Matrix.one_apply_eq, smul_eq_mul,
    mul_one]
  norm_num

/-- C4 (counterexample to the claim): at `μ = 1 ≠ 0` (one site, κ = 0,
σκ = +1, `Nt = 2`) `logdetM` fails as claimed, but `solveM` happily returns a
result — the claimed `μ ≠ 0` refusal does not exist in `solveM`. -/
theorem C4_counterexample :
    ((⟨0, 1, 1⟩ : HFM ℚ 1).mu ≠ 0)
    ∧ logdetM oneF oneF (fun _ => (0 : ℚ)) id (⟨0, 1, 1⟩ : HFM ℚ 1) phiZero 2
        Species.PARTICLE = none
    ∧ solveM oneF oneF (⟨0, 1, 1⟩ : HFM ℚ 1) phiZero 2 Species.PARTICLE []
        = some [] := by
  refine ⟨by norm_num, ?_, ?_⟩
  · unfold logdetM
    rw [if_pos (by norm_num : (⟨0, 1, 1⟩ : HFM ℚ 1).mu ≠ 0)]
  · unfold solveM
    rw [if_neg wit_detK4, if_neg wit_detA4]
    rfl

theorem C4_theorem_witness :
    logdetM oneF oneF (fun _ => (0 : ℚ)) id (⟨0, 1, 1⟩ : HFM ℚ 1) phiZero 2
        Species.PARTICLE = none
    ∧ ∃ out, solveM oneF oneF (⟨0, 1, 1⟩ : HFM ℚ 1) phiZero 2 Species.PARTICLE []
        = some out := by
  have h := C4_theorem oneF oneF (⟨0, 1, 1⟩ : HFM ℚ 1) phiZero 2 Species.PARTICLE
    (fun _ => (0 : ℚ)) id (by norm_num)
  exact ⟨h.1, h.2 [] wit_detK4 wit_detA4⟩

/-- C6 (counterexample to the claim): at `Nt = 1` (with `μ = 1` so that
`K ≠ F`), the single block `M(0,0)` is `F(0)`, not the claimed `K` — the
corner assignment overwrote the diagonal one. -/
theorem C6_counterexample :
    Mblock oneF oneF (⟨0, 1, 1⟩ : HFM ℚ 1) phiZero 1 Species.PARTICLE 0 0
      = Fmat oneF oneF (⟨0, 1, 1⟩ : HFM ℚ 1) phiZero 1 0 Species.PARTICLE false
    ∧ Mblock oneF oneF (⟨0, 1, 1⟩ : HFM ℚ 1) phiZero 1 Species.PARTICLE 0 0
      ≠ Kmat (⟨0, 1, 1⟩ : HFM ℚ 1) Species.PARTICLE := by
  constructor
  · rfl
  · rw [show Mblock oneF oneF (⟨0, 1, 1⟩ : HFM ℚ 1) phiZero 1 Species.PARTICLE 0 0
        = Fmat oneF oneF (⟨0, 1, 1⟩ : HFM ℚ 1) phiZero 1 0 Species.PARTICLE false
      from rfl, wit_F, wit_K4]
    intro h
    have h00 := congrFun (congrFun h 0) 0
    rw [Matrix.one_apply_eq, Matrix.smul_apply, Matrix.one_apply_eq,
      smul_eq_mul, mul_one] at h00
    norm_num at h00

theorem C6_theorem_witness :
    Mblock oneF oneF qOne phiZero 2 Species.PARTICLE 0 0 = Kmat qOne Species.PARTICLE
    ∧ Mblock oneF oneF qOne phiZero 1 Species.PARTICLE 0 0
      = Fmat oneF oneF qOne phiZero 1 0 Species.PARTICLE false :=
  ⟨((C6_theorem oneF oneF qOne phiZero 2 Species.PARTICLE).1 (by norm_num)).1 0
      (by norm_num),
   (C6_theorem oneF oneF qOne phiZero 1 Species.PARTICLE).2 rfl⟩

theorem toFirstLogBranch_re (z : ℂ) : (toFirstLogBranch z).re = z.re := rfl

/-- `toFirstLogBranch` does shift its argument by an integer multiple of
`2πi` (this half of the projection claim is true). -/
theorem toFirstLogBranch_shift (z : ℂ) :
    ∃ k : ℤ, toFirstLogBranch z = z + (2 * (k : ℝ) * Real.pi : ℝ) * Complex.I := by
  refine ⟨-rtrunc ((z.im + Real.pi) / (2 * Real.pi)), ?_⟩
  apply Complex.ext
  · simp [toFirstLogBranch]
  · simp only [toFirstLogBranch, fmodC, Complex.add_im, Complex.mul_im,
      Complex.ofReal_re, Complex.I_im, Complex.ofReal_im, Complex.I_re]
    push_cast
    ring

/-- C5 (code_bug evaluation): at `z = -2πi` the code returns `-2πi` itself —
`fmod` keeps the sign of its dividend, so the imaginary part `-2π` lies
outside the claimed interval `(-π, π]`. -/
theorem C5_theorem :
    toFirstLogBranch ⟨0, -(2 * Real.pi)⟩ = ⟨0, -(2 * Real.pi)⟩
    ∧ ¬(-Real.pi < (toFirstLogBranch ⟨0, -(2 * Real.pi)⟩).im
        ∧ (toFirstLogBranch ⟨0, -(2 * Real.pi)⟩).im ≤ Real.pi) := by
  have hπ := Real.pi_pos
  have h1 : (-(2 * Real.pi) + Real.pi) / (2 * Real.pi) = -(1 / 2) := by
    field_simp
    ring
  have h2 : rtrunc (-(1 / 2) : ℝ) = 0 := by
    rw [rtrunc, if_neg (by norm_num)]
    rw [Int.ceil_eq_zero_iff]
    constructor <;> norm_num
  have h3 : toFirstLogBranch ⟨0, -(2 * Real.pi)⟩ = ⟨0, -(2 * Real.pi)⟩ := by
    simp only [toFirstLogBranch, fmodC, h1, h2]
    apply Complex.ext <;> simp
  refine ⟨h3, ?_⟩
  rw [h3]
  intro hmem
  have h4 : (Complex.mk 0 (-(2 * Real.pi))).im = -(2 * Real.pi) := rfl
  rw [h4] at hmem
  linarith [hmem.1]

section ClaimTheorems

variable {K : Type} [Field K] {Nx : ℕ}

/-- C7: `shortcutForHoles` is true iff the basis is `PARTICLE_HOLE`, the
hopping is bipartite, `μ̃ = 0` exactly and `σκ = +1`; in particular it is
false for the `SPIN` basis whatever the other parameters are. -/
theorem C7_theorem [DecidableEq K] (basis : HFABasis) (kappaTilde : Mat K Nx)
    (muTilde : K) (sigmaKappa : ℤ) :
    (shortcutForHoles basis kappaTilde muTilde sigmaKappa = true
      ↔ (basis = HFABasis.PARTICLE_HOLE ∧ BipartiteHopping kappaTilde
          ∧ muTilde = 0 ∧ sigmaKappa = 1))
    ∧ shortcutForHoles HFABasis.SPIN kappaTilde muTilde sigmaKappa = false := by
  constructor
  · cases basis with
    | SPIN => simp [shortcutForHoles, holeShortcutPossible]
    | PARTICLE_HOLE =>
      simp only [shortcutForHoles, holeShortcutPossible, isBipartite]
      split_ifs with h1 h2 h3 <;>
        simp_all [decide_eq_true_eq]
  · rfl

/-- C9: `updateKappa`/`updateMu` clear all four caches; the next
`Kinv`/`logdetKinv` call after an update returns the value derived from the
updated parameters; and every state reachable through the cache-touching
operations is coherent (each populated cache equals the value computed from
the current κ and μ). -/
theorem C9_theorem (logdetF : Mat K Nx → K) :
    (∀ (s : HFMState K Nx) (kappa' : Mat K Nx),
        (updateKappa s kappa').kinvp = none ∧ (updateKappa s kappa').kinvh = none
        ∧ (updateKappa s kappa').ldkinvp = none ∧ (updateKappa s kappa').ldkinvh = none)
    ∧ (∀ (s : HFMState K Nx) (mu' : K),
        (updateMu s mu').kinvp = none ∧ (updateMu s mu').kinvh = none
        ∧ (updateMu s mu').ldkinvp = none ∧ (updateMu s mu').ldkinvh = none)
    ∧ (∀ (s : HFMState K Nx) (kappa' : Mat K Nx) (sp : Species),
        (KinvOp (updateKappa s kappa') sp).1
          = minv (Kmat (updateKappa s kappa').params sp))
    ∧ (∀ (s : HFMState K Nx) (mu' : K) (sp : Species),
        (KinvOp (updateMu s mu') sp).1 = minv (Kmat (updateMu s mu').params sp)
        ∧ (logdetKinvOp logdetF (updateMu s mu') sp).1
          = logdetF (minv (Kmat (updateMu s mu').params sp)))
    ∧ (∀ s : HFMState K Nx, Reaches logdetF s → coherent logdetF s) := by
  refine ⟨fun s kappa' => ⟨rfl, rfl, rfl, rfl⟩, fun s mu' => ⟨rfl, rfl, rfl, rfl⟩,
    fun s kappa' sp => ?_, fun s mu' sp => ?_, fun s hs => ?_⟩
  · cases sp <;> rfl
  · cases sp <;> exact ⟨rfl, rfl⟩
  · induction hs with
    | init kappa mu sigmaKappa => exact ⟨by simp [mkHFM], by simp [mkHFM], by simp [mkHFM], by simp [mkHFM]⟩
    | updK s kappa' _ _ => exact ⟨by simp [updateKappa], by simp [updateKappa], by simp [updateKappa], by simp [updateKappa]⟩
    | updMu s mu' _ _ => exact ⟨by simp [updateMu], by simp [updateMu], by simp [updateMu], by simp [updateMu]⟩
    | kinv s sp _ ih =>
      obtain ⟨ih1, ih2, ih3, ih4⟩ := ih
      cases sp with
      | PARTICLE =>
        cases hc : s.kinvp with
        | some w => simpa [KinvOp, hc] using ⟨ih1, ih2, ih3, ih4⟩
        | none =>
          refine ⟨?_, ?_, ?_, ?_⟩ <;>
            simp only [KinvOp, hc, HFMState.params] at *
          · intro w hw
            simpa using hw.symm
          · exact ih2
          · exact ih3
          · exact ih4
      | HOLE =>
        cases hc : s.kinvh with
        | some w => simpa [KinvOp, hc] using ⟨ih1, ih2, ih3, ih4⟩
        | none =>
          refine ⟨?_, ?_, ?_, ?_⟩ <;>
            simp only [KinvOp, hc, HFMState.params] at *
          · exact ih1
          · intro w hw
            simpa using hw.symm
          · exact ih3
          · exact ih4
    | ldkinv s sp _ ih =>
      obtain ⟨ih1, ih2, ih3, ih4⟩ := ih
      cases sp with
      | PARTICLE =>
        cases hc : s.ldkinvp with
        | some w => simpa [logdetKinvOp, hc] using ⟨ih1, ih2, ih3, ih4⟩
        | none =>
          cases hk : s.kinvp with
          | some w =>
            refine ⟨?_, ?_, ?_, ?_⟩ <;>
              simp only [logdetKinvOp, hc, KinvOp, hk, HFMState.params] at *
            · exact ih1
            · exact ih2
            · intro w' hw'
              have h5 := ih1 w rfl
              have h6 : logdetF w = w' := by simpa using hw'
              rw [← h6, h5]
            · exact ih4
          | none =>
            refine ⟨?_, ?_, ?_, ?_⟩ <;>
              simp only [logdetKinvOp, hc, KinvOp, hk, HFMState.params] at *
            · intro w hw
              simpa using hw.symm
            · exact ih2
            · intro w hw
              simpa using hw.symm
            · exact ih4
      | HOLE =>
        cases hc : s.ldkinvh with
        | some w => simpa [logdetKinvOp, hc] using ⟨ih1, ih2, ih3, ih4⟩
        | none =>
          cases hk : s.kinvh with
          | some w =>
            refine ⟨?_, ?_, ?_, ?_⟩ <;>
              simp only [logdetKinvOp, hc, KinvOp, hk, HFMState.params] at *
            · exact ih1
            · exact ih2
            · exact ih3
            · intro w' hw'
              have h5 := ih2 w rfl
              have h6 : logdetF w = w' := by simpa using hw'
              rw [← h6, h5]
          | none =>
            refine ⟨?_, ?_, ?_, ?_⟩ <;>
              simp only [logdetKinvOp, hc, KinvOp, hk, HFMState.params] at *
            · exact ih1
            · intro w hw
              simpa using hw.symm
            · exact ih3
            · intro w hw
              simpa using hw.symm

end ClaimTheorems

end Isle
